import Mathlib

/-!
# qander-rekeningoverzicht: a shallow embedding of `qander.go`

The program is one `main` function: it loads the login page, extracts four
tokens with regular expressions, posts the credentials, loads the statements
page, extracts the statement references, filters them by age, downloads the
survivors, mails them and logs out.

Texts (`[]byte` and `string` values of the source) are lists of characters.
Library calls the source relies on (`regexp`, `time`, `net`, `strconv`,
`path/filepath`) are embedded from their documented behaviour; the network,
the clock and the mail relay are an explicit `World`.
-/

namespace Qander

/-- A Go `string` or `[]byte`, as the list of its characters. -/
abbrev Str := List Char

/-- The single quote character. -/
def quote : Char := Char.ofNat 39

/-- The line feed character. -/
def newline : Char := Char.ofNat 10

/-- The slash character. -/
def slash : Char := Char.ofNat 47

/-- The colon character. -/
def colon : Char := Char.ofNat 58

/-- The opening square bracket. -/
def lbracket : Char := Char.ofNat 91

/-- The closing square bracket. -/
def rbracket : Char := Char.ofNat 93

/-! ## Package `regexp`: the fragment the five patterns of `main` use -/

/-- Regular expressions: literal text, a one-character class, the greedy star
of a one-character class, concatenation and a numbered capturing group. -/
inductive Regex where
  | lits (s : Str)
  | cls (p : Char → Bool)
  | star (p : Char → Bool)
  | seq (a b : Regex)
  | group (i : Nat) (a : Regex)

/-- Consume the literal `l` from the front of the input, if it is there. -/
def stripLit : Str → Str → Option Str
  | [], s => some s
  | _ :: _, [] => none
  | c :: cs, x :: xs => if x = c then stripLit cs xs else none

/-- Greedy star of the class `p` followed by the continuation `k`: the longest
run of `p`-characters is tried first, and a shorter one only when the
continuation fails on everything longer (the order of a backtracking matcher). -/
def starGreedy {R : Type} (p : Char → Bool) (k : Str → Option R) : Str → Option R
  | [] => k []
  | c :: cs =>
    if p c then
      match starGreedy p k cs with
      | some r => some r
      | none => k (c :: cs)
    else k (c :: cs)

/-- Match `re` at the front of the input `s`, then hand the rest of the input
and the captures to the continuation `k`; the first success in priority order
is the result. -/
def Regex.run {R : Type} : Regex → (Str → List Str → Option R) → Str → List Str → Option R
  | .lits l, k, s, caps =>
    match stripLit l s with
    | some rest => k rest caps
    | none => none
  | .cls p, k, s, caps =>
    match s with
    | c :: cs => if p c then k cs caps else none
    | [] => none
  | .star p, k, s, caps => starGreedy p (fun rest => k rest caps) s
  | .seq a b, k, s, caps => a.run (fun rest caps1 => b.run k rest caps1) s caps
  | .group i a, k, s, caps =>
    a.run (fun rest caps1 => k rest (caps1.set i (s.take (s.length - rest.length)))) s caps

/-- Number of capturing groups of the expression. -/
def Regex.numSubexp : Regex → Nat
  | .lits _ => 0
  | .cls _ => 0
  | .star _ => 0
  | .seq a b => a.numSubexp + b.numSubexp
  | .group _ a => a.numSubexp + 1

/-- The match of `re` that starts at the first character of `s`, as the list
`[whole match, group 1, group 2, ...]`. -/
def Regex.matchAt (re : Regex) (s : Str) : Option (List Str) :=
  re.run (fun rest caps => some (caps.set 0 (s.take (s.length - rest.length)))) s
    (List.replicate (re.numSubexp + 1) [])

/-- Embedding of `(*Regexp).FindSubmatch`: the leftmost match and its groups, the
empty list (Go: `nil`) when there is none. -/
def Regex.FindSubmatch (re : Regex) : Str → List Str
  | [] => (re.matchAt []).getD []
  | c :: cs =>
    match re.matchAt (c :: cs) with
    | some m => m
    | none => re.FindSubmatch cs

/-- Scan for `FindAllSubmatch`. `skip` counts the characters still covered by
the previous match; `adj` tells that the previous match ended right here, where
an empty match is not accepted. -/
def Regex.findAllAux (re : Regex) : Nat → Bool → Str → List (List Str)
  | _ + 1, _, [] => []
  | skip + 1, _, _ :: cs => re.findAllAux skip true cs
  | 0, adj, [] =>
    match re.matchAt [] with
    | some m => if adj then [] else [m]
    | none => []
  | 0, adj, c :: cs =>
    match re.matchAt (c :: cs) with
    | some m =>
      if (m.headD []).length = 0 then
        if adj then re.findAllAux 0 false cs else m :: re.findAllAux 0 false cs
      else m :: re.findAllAux ((m.headD []).length - 1) true cs
    | none => re.findAllAux 0 false cs

/-- Embedding of `(*Regexp).FindAllSubmatch(b, -1)`: all successive
non-overlapping matches, leftmost first; the empty list is Go's `nil`. -/
def Regex.FindAllSubmatch (re : Regex) (b : Str) : List (List Str) :=
  re.findAllAux 0 false b

/-- The class `\s` of Go regular expressions: tab, line feed, form feed,
carriage return and space. -/
def isSpace (c : Char) : Bool :=
  c = Char.ofNat 9 || c = Char.ofNat 10 || c = Char.ofNat 12 || c = Char.ofNat 13
    || c = Char.ofNat 32

/-- The class `[^']`. -/
def notQuote (c : Char) : Bool := c != quote

/-- The class `.` (no `s` flag): every character but the line feed. -/
def dot (c : Char) : Bool := c != newline

/-- The shape `key\s*:\s*'([^']*)'` shared by the four login-page patterns. -/
def keyValue (key : Str) : Regex :=
  .seq (.lits key) (.seq (.star isSpace) (.seq (.lits [colon]) (.seq (.star isSpace)
    (.seq (.lits [quote]) (.seq (.group 1 (.star notQuote)) (.lits [quote]))))))

/-- Key of `reLogin`: the word login between single quotes. -/
def keyLogin : Str := "'login'".toList

/-- Key of `reLogout`. -/
def keyLogout : Str := "logout".toList

/-- Key of `reURLDone`. -/
def keyURLDone : Str := "urlDone".toList

/-- Key of `reRecaptcha`. -/
def keyRecaptcha : Str := "recaptchaSitekey".toList

/-- Pattern `'login'\s*:\s*'([^']*)'`. -/
def reLogin : Regex := keyValue keyLogin

/-- Pattern `logout\s*:\s*'([^']*)'`. -/
def reLogout : Regex := keyValue keyLogout

/-- Pattern `urlDone\s*:\s*'([^']*)'`. -/
def reURLDone : Regex := keyValue keyURLDone

/-- Pattern `recaptchaSitekey\s*:\s*'([^']*)'`. -/
def reRecaptcha : Regex := keyValue keyRecaptcha

/-- Leading literal of `reStatements`. -/
def stmtHead : Str := "/service/rest/statements/".toList

/-- Trailing literal of `reStatements`. -/
def stmtTail : Str := "/downloadPdf".toList

/-- Pattern `/service/rest/statements/(?P<date>.*)/(?P<hash>.*)/downloadPdf`. -/
def reStatements : Regex :=
  .seq (.lits stmtHead) (.seq (.group 1 (.star dot))
    (.seq (.lits [slash]) (.seq (.group 2 (.star dot)) (.lits stmtTail))))

/-! ## Package `time`: the layout `20060102`, `Sub` and `Duration` -/

/-- The function `isDigit` of package `time`, on one character. -/
def isDigit (c : Char) : Bool := 48 ≤ c.toNat && c.toNat ≤ 57

/-- Value of a decimal digit. -/
def digitVal (c : Char) : Nat := c.toNat - 48

/-- Value of a string of decimal digits, most significant first. -/
def digitsVal (s : Str) : Nat := s.foldl (fun n c => n * 10 + digitVal c) 0

/-- The function `isLeap` of package `time`. -/
def isLeap (year : Nat) : Bool := year % 4 = 0 && (year % 100 != 0 || year % 400 = 0)

/-- The function `daysIn` of package `time`: the number of days of a month. -/
def daysIn (month year : Nat) : Nat :=
  if month = 2 then (if isLeap year then 29 else 28)
  else if month = 4 || month = 6 || month = 9 || month = 11 then 30
  else 31

/-- A calendar date as `time.Parse` collects it. -/
structure Civil where
  year : Nat
  month : Nat
  day : Nat
deriving DecidableEq

/-- The function `getnum(s, true)` of package `time`: exactly two digits. -/
def getnum2 : Str → Option (Nat × Str)
  | a :: b :: rest => if isDigit a && isDigit b then some (digitVal a * 10 + digitVal b, rest) else none
  | _ => none

/-- Embedding of `time.Parse` for the layout `20060102`: a four-digit year
(`stdLongYear`), a two-digit month in 1..12 (`stdZeroMonth`), a two-digit day
(`stdZeroDay`), no text after them, and a day that exists in that month. -/
def parseLayout (value : Str) : Option Civil :=
  match value with
  | y0 :: y1 :: y2 :: y3 :: v1 =>
    if isDigit y0 && isDigit y1 && isDigit y2 && isDigit y3 then
      match getnum2 v1 with
      | some (month, v2) =>
        if month = 0 || 12 < month then none
        else
          match getnum2 v2 with
          | some (day, v3) =>
            if v3.length != 0 then none
            else if day < 1 || daysIn month (digitsVal [y0, y1, y2, y3]) < day then none
            else some ⟨digitsVal [y0, y1, y2, y3], month, day⟩
          | none => none
      | none => none
    else none
  | _ => none

/-- Largest `int64`. -/
def maxInt64 : Int := 9223372036854775807

/-- Smallest `int64`. -/
def minInt64 : Int := -9223372036854775808

/-- Two's-complement wrap-around of an integer to `int64`. -/
def wrap64 (x : Int) : Int := (x + 9223372036854775808) % 18446744073709551616 - 9223372036854775808

/-- Multiplication of two `int64` values (of two `time.Duration`s). -/
def mul64 (a b : Int) : Int := wrap64 (a * b)

/-- The constant `time.Hour`, in nanoseconds. -/
def Hour : Int := 3600000000000

/-- Embedding of `Time.Sub` on wall-clock instants (nanoseconds since the Unix
epoch): the difference `t - u`, or the largest (smallest) duration when the
difference is too large (small) for a `Duration`. -/
def Sub (t u : Int) : Int :=
  if maxInt64 < t - u then maxInt64
  else if t - u < minInt64 then minInt64
  else t - u

/-- The test of line 174: `*days != 0 && age > time.Duration(*days)*24*time.Hour`. -/
def tooOld (days age : Int) : Bool :=
  days != 0 && decide (mul64 (mul64 (wrap64 days) 24) Hour < age)

/-! ## Package `net`: `SplitHostPort` and `JoinHostPort`; `strconv.Atoi`;
`strings`; `filepath.Base` -/

/-- Index of the first occurrence of `c`, as `IndexByteString` (`none` for -1). -/
def indexByte (s : Str) (c : Char) : Option Nat :=
  match s.indexOf c with
  | i => if i < s.length then some i else none

/-- Index of the last occurrence of `c`, as `LastIndexByteString`. -/
def lastIndexByte (s : Str) (c : Char) : Option Nat :=
  match indexByte s.reverse c with
  | some i => some (s.length - 1 - i)
  | none => none

/-- An `*net.AddrError`. -/
structure AddrError where
  Err : Str
  Addr : Str
deriving DecidableEq

/-- The method `(*AddrError).Error`. -/
def AddrError.Error (e : AddrError) : Str :=
  if e.Addr.length != 0 then "address ".toList ++ e.Addr ++ ": ".toList ++ e.Err else e.Err

/-- Text of the error for an address without a port. -/
def missingPort : Str := "missing port in address".toList

/-- Text of the error for an address with more than one colon outside brackets. -/
def tooManyColons : Str := "too many colons in address".toList

/-- Embedding of `net.SplitHostPort`. -/
def SplitHostPort (hostport : Str) : Except AddrError (Str × Str) :=
  match lastIndexByte hostport colon with
  | none => .error ⟨missingPort, hostport⟩
  | some i =>
    if hostport.head? = some lbracket then
      match indexByte hostport rbracket with
      | none => .error ⟨"missing ']' in address".toList, hostport⟩
      | some e =>
        if e + 1 = hostport.length then .error ⟨missingPort, hostport⟩
        else if e + 1 = i then
          if (indexByte (hostport.drop 1) lbracket).isSome then
            .error ⟨"unexpected '[' in address".toList, hostport⟩
          else if (indexByte (hostport.drop (e + 1)) rbracket).isSome then
            .error ⟨"unexpected ']' in address".toList, hostport⟩
          else .ok ((hostport.drop 1).take (e - 1), hostport.drop (i + 1))
        else if hostport.get? (e + 1) = some colon then .error ⟨tooManyColons, hostport⟩
        else .error ⟨missingPort, hostport⟩
    else
      if (indexByte (hostport.take i) colon).isSome then .error ⟨tooManyColons, hostport⟩
      else if (indexByte hostport lbracket).isSome then
        .error ⟨"unexpected '[' in address".toList, hostport⟩
      else if (indexByte hostport rbracket).isSome then
        .error ⟨"unexpected ']' in address".toList, hostport⟩
      else .ok (hostport.take i, hostport.drop (i + 1))

/-- Embedding of `net.JoinHostPort`. -/
def JoinHostPort (host port : Str) : Str :=
  if (indexByte host colon).isSome then [lbracket] ++ host ++ [rbracket, colon] ++ port
  else host ++ [colon] ++ port

/-- Embedding of `strings.Contains`. -/
def Contains : Str → Str → Bool
  | [], sub => sub.length = 0
  | c :: cs, sub => (stripLit sub (c :: cs)).isSome || Contains cs sub

/-- Embedding of `strings.Split(s, ",")` for a one-character separator. -/
def Split (s : Str) (sep : Char) : List Str :=
  s.splitOn sep

/-- Embedding of `strconv.Atoi` on a 64-bit platform: an optional sign, at least
one decimal digit, a value in the range of `int`; `none` is the `*NumError`. -/
def Atoi (s : Str) : Option Int :=
  let body : Str :=
    match s with
    | c :: cs => if c = Char.ofNat 43 || c = Char.ofNat 45 then cs else c :: cs
    | [] => []
  let neg : Bool := s.head? = some (Char.ofNat 45)
  if body.length = 0 || !(body.all isDigit) then none
  else
    let n : Int := if neg then -(digitsVal body : Int) else (digitsVal body : Int)
    if n < minInt64 || maxInt64 < n then none else some n

/-- Embedding of `filepath.Base` on Unix. -/
def Base (path : Str) : Str :=
  if path.length = 0 then ".".toList
  else
    let p1 := (path.reverse.dropWhile (fun c => c = slash)).reverse
    let p2 := (p1.reverse.takeWhile (fun c => c != slash)).reverse
    if p2.length = 0 then [slash] else p2

/-! ## The world outside the process and what a run leaves behind -/

/-- The value marshalled by `json.Marshal(login)`: the anonymous struct of
line 103 with its three fields. -/
structure Login where
  Email : Str
  Passwd : Str
  Recatcha : Option Str
deriving DecidableEq

/-- A request issued through `client`. -/
inductive Request where
  | get (url : Str)
  | post (url contentType : Str) (body : Option Login)
deriving DecidableEq

deriving instance DecidableEq for Except

/-- Outcome of a call that returns a value or an `error`. -/
inductive Result (α : Type) where
  | ok (v : α)
  | err (e : Str)
deriving DecidableEq

/-- An `*http.Response`: what `ioutil.ReadAll(resp.Body)` yields. -/
structure Response where
  body : Result Str
deriving DecidableEq

/-- A file of a `gomail.Message`: name, header and the response whose body the
copy function reads when the message is written. -/
structure Attachment where
  Name : Str
  Header : List (Str × List Str)
  source : Response
deriving DecidableEq

/-- A `gomail.Message`. -/
structure Message where
  header : List (Str × List Str)
  body : Option (Str × Str)
  attachments : List Attachment
deriving DecidableEq

/-- The network, the clock, the time zone and the mail relay: `refuse url` is
the error, if any, with which `net/url` and `net/http` turn down the URL before
anything is sent, for a reason other than a control character (a malformed
escape, a host that is not one); `roundTrip n r` answers the request `r`
issued as the exchange number `n` of the client,
`now n` is the result of call number `n` of `time.Now()` (nanoseconds since the
Unix epoch), `localDate d` is the instant of midnight of `d` in `time.Local`,
and `dialAndSend` is the error (if any) of `DialAndSend`. -/
structure World where
  refuse : Str → Option Str
  roundTrip : Nat → Request → Result Response
  now : Nat → Int
  localDate : Civil → Int
  dialAndSend : Str → Int → Str → Str → Message → Option Str

/-- The command-line flags after `flag.Parse()`. -/
structure Flags where
  days : Int
  all : Bool
  username : Str
  password : Str
  smtp : Str
  smtpUser : Str
  smtpPass : Str
  smtpTo : Str

/-- What `log.Fatal` prints: a text, or the `*strconv.NumError` of `Atoi` on
the given input. -/
inductive Diag where
  | text (s : Str)
  | numError (num : Str)
deriving DecidableEq

/-- What the process does that the outside can see. `fatal` is a `log.Fatal`:
the text is printed and the process ends through `os.Exit(1)`. -/
inductive Event where
  | request (r : Request)
  | dialAndSend (host : Str) (port : Int) (username password : Str) (m : Message)
  | fatal (d : Diag)
deriving DecidableEq

/-- State of a run: the events so far, the number of exchanges of `client` and
the number of calls of `time.Now()`. -/
structure Run where
  trace : List Event
  exchanges : Nat
  clock : Nat
deriving DecidableEq

/-- A finished run: its events and its exit status. -/
structure Outcome where
  trace : List Event
  code : Nat
deriving DecidableEq

/-- Effect of `log.Fatal`: print, then `os.Exit(1)`. The process ends at once;
deferred functions are not run. -/
def Run.fatal (st : Run) (d : Diag) : Outcome :=
  ⟨st.trace ++ [Event.fatal d], 1⟩

/-- The URL of a request. -/
def Request.url : Request → Str
  | .get url => url
  | .post url _ _ => url

/-- The function `stringContainsCTLByte` of `net/url`: a byte below the space or
the byte 0x7f. -/
def stringContainsCTLByte (s : Str) : Bool :=
  s.any (fun c => c.toNat < 32 || c.toNat = 127)

/-- The error with which `client.Get` and `client.Post` return before any I/O:
`url.Parse` cuts the fragment off at the first `#` and turns the rest down when
it holds a control character; other refusals are the world's. The wrapping of
the text in an `*url.Error` is left out. -/
def refusal (w : World) (r : Request) : Option Str :=
  if stringContainsCTLByte (r.url.takeWhile (fun c => c != Char.ofNat 35)) then
    some "net/url: invalid control character in URL".toList
  else w.refuse r.url

/-- What `client.Get` or `client.Post` returns for the request `r` when `n`
requests were issued before. -/
def answer (w : World) (n : Nat) (r : Request) : Result Response :=
  match refusal w r with
  | some e => .err e
  | none => w.roundTrip n r

/-- One call of `client.Get` or `client.Post`: a URL that is turned down gives
an error and nothing is sent; otherwise the request is issued and the world
answers. -/
def Run.send (st : Run) (w : World) (r : Request) : Run × Result Response :=
  match refusal w r with
  | some e => (st, .err e)
  | none =>
    ({ st with trace := st.trace ++ [Event.request r], exchanges := st.exchanges + 1 },
      w.roundTrip st.exchanges r)

/-! ## `gomail`: the calls `main` makes -/

/-- The function `gomail.NewMessage()`. -/
def NewMessage : Message := ⟨[], none, []⟩

/-- The method `(*Message).SetHeader`. -/
def Message.SetHeader (m : Message) (field : Str) (value : List Str) : Message :=
  { m with header := m.header.filter (fun kv => kv.1 != field) ++ [(field, value)] }

/-- The method `(*Message).SetBody`. -/
def Message.SetBody (m : Message) (contentType body : Str) : Message :=
  { m with body := some (contentType, body) }

/-- The method `(*Message).Attach` with the settings `SetHeader(h)` and
`SetCopyFunc` reading `source`: the file, named `filepath.Base(filename)`, is
appended to the attachments. -/
def Message.Attach (m : Message) (filename : Str) (h : List (Str × List Str))
    (source : Response) : Message :=
  { m with attachments := m.attachments ++ [⟨Base filename, h, source⟩] }

/-! ## `main` -/

/-- The constant `urlSITE`. -/
def urlSITE : Str := "https://www.qander.nl".toList

/-- The constant `urlLOGIN`. -/
def urlLOGIN : Str := urlSITE ++ "/service/login.jsp".toList

/-- The constant `urlSTATEMENTS`. -/
def urlSTATEMENTS : Str := urlSITE ++ "/service/secure/statements.jsp".toList

/-- The content type of the two `client.Post` calls. -/
def contentTypeJSON : Str := "application/json".toList

/-- The four values lines 74-95 take from the login page. -/
structure Tokens where
  login : Str
  logout : Str
  urlDone : Str
  recaptcha : Str
deriving DecidableEq

/-- Lines 70-95 of `main`: the four `FindSubmatch` calls, each followed by its
`log.Fatal` when `len(r) == 0`, and the use of `r[1]`. -/
def extractTokens (body : Str) : Except Diag Tokens :=
  let r := reLogin.FindSubmatch body
  if r.length = 0 then .error (.text "Unable to find 'login'".toList)
  else
    let urlLogin := r.getD 1 []
    let r := reLogout.FindSubmatch body
    if r.length = 0 then .error (.text "Unable to find 'logout'".toList)
    else
      let urlLogout := r.getD 1 []
      let r := reURLDone.FindSubmatch body
      if r.length = 0 then .error (.text "Unable to find 'urlDone'".toList)
      else
        let urlDone := r.getD 1 []
        let r := reRecaptcha.FindSubmatch body
        if r.length = 0 then .error (.text "Unable to find 'recaptchaSitekey'".toList)
        else .ok ⟨urlLogin, urlLogout, urlDone, r.getD 1 []⟩

/-- State of the statement loop: the run, the message `m` and `hasFile`. -/
structure LoopState where
  run : Run
  m : Message
  hasFile : Nat
deriving DecidableEq

/-- The header given to every attachment (line 189). -/
def pdfHeader : List (Str × List Str) :=
  [("Content-Type".toList, ["application/pdf".toList])]

/-- Lines 178-190: get `urlSITE + stmts[0]`, fatal on error, else attach the
response under the name `"statement-" + stmts[1]` and count it. -/
def download (w : World) (st : LoopState) (stmts : List Str) : Except (Run × Diag) LoopState :=
  match st.run.send w (.get (urlSITE ++ stmts.getD 0 [])) with
  | (run1, .err e) => .error (run1, .text e)
  | (run1, .ok resp) =>
    .ok ⟨run1, st.m.Attach ("statement-".toList ++ stmts.getD 1 []) pdfHeader resp,
      st.hasFile + 1⟩

/-- One turn of the loop of lines 165-191 for the match `stmts`. -/
def loopStep (w : World) (f : Flags) (st : LoopState) (stmts : List Str) :
    Except (Run × Diag) LoopState :=
  match parseLayout (stmts.getD 1 []) with
  | none => .ok st
  | some d =>
    let age := Sub (w.now st.run.clock) (w.localDate d)
    let st1 : LoopState := { st with run := { st.run with clock := st.run.clock + 1 } }
    if tooOld f.days age then .ok st1
    else download w st1 stmts

/-- The loop of lines 165-191 over the matches `rs`. -/
def loop (w : World) (f : Flags) : List (List Str) → LoopState → Except (Run × Diag) LoopState
  | [], st => .ok st
  | stmts :: rest, st =>
    match loopStep w f st stmts with
    | .error e => .error e
    | .ok st1 => loop w f rest st1

/-- Lines 207-214: the second `SplitHostPort` and `Atoi`, each fatal on error. -/
def hostAndPort (smtp : Str) : Except Diag (Str × Int) :=
  match SplitHostPort smtp with
  | .error err => .error (.text err.Error)
  | .ok (host, portstr) =>
    match Atoi portstr with
    | none => .error (.numError portstr)
    | some port => .ok (host, port)

/-- Lines 198-214: the host and port handed to `gomail.NewDialer`, or the
fatal diagnostic. -/
def dialTarget (smtp : Str) : Except Diag (Str × Int) :=
  match SplitHostPort smtp with
  | .error err =>
    if !Contains err.Error missingPort then
      .error (.text ("malformed address: ".toList ++ err.Error))
    else hostAndPort (JoinHostPort smtp "587".toList)
  | .ok _ => hostAndPort smtp

/-- Lines 193-196: the sender, the recipients, the subject and the body. -/
def complete (m : Message) (smtpTo : Str) : Message :=
  (((m.SetHeader "From".toList ["Qander Automailer <nobody@polyware.nl>".toList]).SetHeader
    "To".toList (Split smtpTo (Char.ofNat 44))).SetHeader
    "Subject".toList ["Uw rekeningoverzicht van Qander".toList]).SetBody
    "text/plain".toList "Attached you will find the statements".toList

/-- Lines 192-220: when `hasFile != 0`, complete the message, resolve the
target and call `DialAndSend`. -/
def mail (w : World) (f : Flags) (st : LoopState) : Except (Run × Diag) Run :=
  if st.hasFile != 0 then
    let m := complete st.m f.smtpTo
    match dialTarget f.smtp with
    | .error d => .error (st.run, d)
    | .ok (host, port) =>
      let run1 : Run :=
        { st.run with trace := st.run.trace ++ [Event.dialAndSend host port f.smtpUser f.smtpPass m] }
      match w.dialAndSend host port f.smtpUser f.smtpPass m with
      | some e => .error (run1, .text e)
      | none => .ok run1
  else .ok st.run

/-- Lines 142-221: everything `main` does after the `defer` statement, up to
its return (`ok`) or a `log.Fatal` (`error`). -/
def afterDefer (w : World) (f : Flags) (st : Run) : Except (Run × Diag) Run :=
  match st.send w (.get urlSTATEMENTS) with
  | (run1, .err e) => .error (run1, .text e)
  | (run1, .ok resp) =>
    match resp.body with
    | .err e => .error (run1, .text e)
    | .ok body =>
      let rs := reStatements.FindAllSubmatch body
      if rs.isEmpty then .error (run1, .text "Unable to find 'statements'".toList)
      else
        match loop w f rs ⟨run1, NewMessage, 0⟩ with
        | .error e => .error e
        | .ok st1 => mail w f st1

/-- The deferred function of lines 127-140: post the logout, fatal on error. -/
def logout (w : World) (urlLogout : Str) (st : Run) : Outcome :=
  match st.send w (.post (urlSITE ++ urlLogout) contentTypeJSON none) with
  | (run1, .err e) => run1.fatal (.text e)
  | (run1, .ok resp) =>
    match resp.body with
    | .err e => run1.fatal (.text e)
    | .ok _ => ⟨run1.trace, 0⟩

/-- The test of line 43: one of the required flags is empty. -/
def missingRequired (f : Flags) : Bool :=
  f.username.length = 0 || f.password.length = 0 || f.smtp.length = 0 || f.smtpTo.length = 0

/-- The function `main`. `cookiejar.New` and `json.Marshal` of two strings never
return an error, so their `log.Fatal` branches are left out. A `log.Fatal`
after the `defer` statement ends the process through `os.Exit`, which does not
run the deferred logout; the deferred logout runs when `main` returns. -/
def main (w : World) (f : Flags) : Outcome :=
  let st0 : Run := ⟨[], 0, 0⟩
  if missingRequired f then
    st0.fatal (.text "One or more required flags are not given".toList)
  else
    match st0.send w (.get urlLOGIN) with
    | (st1, .err e) => st1.fatal (.text e)
    | (st1, .ok resp) =>
      match resp.body with
      | .err e => st1.fatal (.text e)
      | .ok body =>
        match extractTokens body with
        | .error d => st1.fatal d
        | .ok tok =>
          match st1.send w (.post (urlSITE ++ tok.login) contentTypeJSON
              (some ⟨f.username, f.password, none⟩)) with
          | (st2, .err e) => st2.fatal (.text e)
          | (st2, .ok resp2) =>
            match resp2.body with
            | .err e => st2.fatal (.text e)
            | .ok _ =>
              match afterDefer w f st2 with
              | .error (st3, d) => st3.fatal d
              | .ok st3 => logout w tok.logout st3

/-! ## Data for the worked examples -/

/-- A loop state before the first statement: no event, no attachment. -/
def freshLoop : LoopState := ⟨⟨[], 0, 0⟩, NewMessage, 0⟩

/-- A statement reference as `FindAllSubmatch` returns it. -/
def refOf (date hash : Str) : List Str :=
  [stmtHead ++ date ++ [slash] ++ hash ++ stmtTail, date, hash]

/-- A world whose clock stands at `now`, where every calendar date is the
instant `date`, every request is answered with an empty body and the relay
accepts the message. -/
def constWorld (now date : Int) : World where
  refuse := fun _ => none
  roundTrip := fun _ _ => .ok ⟨.ok []⟩
  now := fun _ => now
  localDate := fun _ => date
  dialAndSend := fun _ _ _ _ _ => none

/-- Flags with the given age threshold and mail target. -/
def flagsOf (days : Int) (smtp : Str) : Flags :=
  ⟨days, false, "user".toList, "secret".toList, smtp, [], [], "to@example.org".toList⟩

/-- Days between 1970-01-01 and the given date of the Gregorian calendar. -/
def daysFromCivil (d : Civil) : Int :=
  let y : Int := if d.month ≤ 2 then (d.year : Int) - 1 else d.year
  let era : Int := y / 400
  let yoe : Int := y - era * 400
  let mp : Int := ((d.month : Int) + 9) % 12
  let doy : Int := (153 * mp + 2) / 5 + d.day - 1
  era * 146097 + (yoe * 365 + yoe / 4 - yoe / 100 + doy) - 719468

/-- Midnight of the given date in a time zone without offset. -/
def utcMidnight (d : Civil) : Int := daysFromCivil d * (24 * Hour)

/-- A login page that carries the four tokens. -/
def pageLogin : Str :=
  "cfg = 'login' : '/service/rest/login', logout: '/service/rest/logout', urlDone : '/service/secure/', recaptchaSitekey: 'KEY'".toList

/-- A login page on which the key login is not between single quotes. -/
def pageLoginBare : Str :=
  "cfg = login: '/service/rest/login', logout: '/service/rest/logout', urlDone: '/service/secure/', recaptchaSitekey: 'KEY'".toList

/-- A login page without the logout token. -/
def pageLoginBroken : Str :=
  "cfg = 'login' : '/service/rest/login', urlDone : '/service/secure/', recaptchaSitekey: 'KEY'".toList

/-- The text of a link to the statement of the given date and hash. -/
def linkTo (date hash : Str) : Str :=
  "<a href='".toList ++ stmtHead ++ date ++ [slash] ++ hash ++ stmtTail ++ "'>pdf</a>".toList

/-- A statements page with two references, each on its own line. -/
def pageStatements : Str :=
  linkTo "20230101".toList "abc".toList ++ [newline] ++ linkTo "20230201".toList "def".toList
    ++ [newline]

/-- A statements page without any reference. -/
def pageEmpty : Str := "<p>no statements yet</p>".toList

/-- The Qander site on 2023-03-01 00:00 UTC: it serves the given login and
statements pages and answers every other request with the bytes `pdf`; the
relay accepts the message. -/
def siteWorld (login statements : Str) : World where
  refuse := fun _ => none
  roundTrip := fun _ r =>
    if r = .get urlLOGIN then .ok ⟨.ok login⟩
    else if r = .get urlSTATEMENTS then .ok ⟨.ok statements⟩
    else .ok ⟨.ok "pdf".toList⟩
  now := fun _ => utcMidnight ⟨2023, 3, 1⟩
  localDate := utcMidnight
  dialAndSend := fun _ _ _ _ _ => none

/-- The example site with its login page and its statements page. -/
def marchWorld : World := siteWorld pageLogin pageStatements

/-- The logout request of a run whose login page is `pageLogin`. -/
def logoutRequest : Request :=
  .post (urlSITE ++ "/service/rest/logout".toList) contentTypeJSON none

/-- The tokens of `pageLogin`. -/
def tokensOfPage : Tokens :=
  ⟨"/service/rest/login".toList, "/service/rest/logout".toList, "/service/secure/".toList,
    "KEY".toList⟩

/-- The login request of the example runs. -/
def loginRequest : Request :=
  .post (urlSITE ++ "/service/rest/login".toList) contentTypeJSON
    (some ⟨"user".toList, "secret".toList, none⟩)

/-- The message of the example run with the two statements of `pageStatements`. -/
def messageOfTwo : Message :=
  complete
    ((NewMessage.Attach "statement-20230101".toList pdfHeader ⟨.ok "pdf".toList⟩).Attach
      "statement-20230201".toList pdfHeader ⟨.ok "pdf".toList⟩)
    "to@example.org".toList

/-! ## What the specification calls a required pattern of the login page -/

/-- The text `body` holds, right after `pre`, the key, optional white space, a
colon, optional white space and the literal `v` between single quotes. -/
def OccursAt (key body pre v : Str) : Prop :=
  ∃ ws1 ws2 post : Str, (∀ c ∈ ws1, isSpace c = true) ∧ (∀ c ∈ ws2, isSpace c = true)
    ∧ quote ∉ v
    ∧ body = pre ++ (key ++ ws1 ++ [colon] ++ ws2 ++ [quote] ++ v ++ [quote] ++ post)

/-- The body contains the pattern of the key somewhere. -/
def HasPattern (key body : Str) : Prop := ∃ pre v : Str, OccursAt key body pre v

/-- The literal `v` is the one of the first occurrence of the pattern of the key. -/
def FirstValue (key body v : Str) : Prop :=
  ∃ pre : Str, OccursAt key body pre v
    ∧ ∀ pre1 v1 : Str, OccursAt key body pre1 v1 → pre.length ≤ pre1.length

/-! ## The statements pattern -/

/-- Continuation of `reStatements` after the hash: the trailing literal. -/
def afterHash (s s1 rest s3 rest2 : Str) : Option (List Str) :=
  match stripLit stmtTail rest2 with
  | none => none
  | some s5 =>
    some [s.take (s.length - s5.length), s1.take (s1.length - rest.length),
      s3.take (s3.length - rest2.length)]

/-- Continuation of `reStatements` after the date: the slash, the hash and the
trailing literal. -/
def afterDate (s s1 rest : Str) : Option (List Str) :=
  match stripLit [slash] rest with
  | none => none
  | some s3 => starGreedy dot (afterHash s s1 rest s3) s3

/-! ## The references that pass the filter -/

/-- The references of the listing that pass the filter, in listing order: the
date token parses and the age, at the reading of the clock made for the
reference, is within the threshold. `k` counts the readings made before. -/
def survivors (w : World) (f : Flags) : Nat → List (List Str) → List (List Str)
  | _, [] => []
  | k, s :: rest =>
    match parseLayout (s.getD 1 []) with
    | none => survivors w f k rest
    | some d =>
      if tooOld f.days (Sub (w.now k) (w.localDate d)) then survivors w f (k + 1) rest
      else s :: survivors w f (k + 1) rest

/-- The run a phase of `main` ends with, whether it returned or was fatal. -/
def runOf : Except (Run × Diag) Run → Run
  | .ok r => r
  | .error (r, _) => r

/-- The run the statement loop ends with, whether it finished or was fatal. -/
def loopRunOf : Except (Run × Diag) LoopState → Run
  | .ok st => st.run
  | .error (r, _) => r

/-- The event is a call of `DialAndSend`. -/
def isSend : Event → Bool
  | .dialAndSend _ _ _ _ _ => true
  | _ => false

/-! ## Listings with at most one reference on a line -/

/-- The text `needle` occurs in `t`. -/
def Occurs (needle t : Str) : Prop := ∃ a b : Str, t = a ++ needle ++ b

/-- The text holds a substring of the form of a reference: the leading literal,
some date, a slash, some hash, the trailing literal. -/
def HasRef (t : Str) : Prop :=
  ∃ a x y b : Str, t = a ++ stmtHead ++ x ++ [slash] ++ y ++ stmtTail ++ b

/-- A line of a listing: text without a reference, or one reference with text
before and after it. -/
inductive Line where
  | plain (t : Str)
  | ref (pre date hash post : Str)

/-- The characters of a line. -/
def Line.text : Line → Str
  | .plain t => t
  | .ref pre date hash post => pre ++ stmtHead ++ date ++ [slash] ++ hash ++ stmtTail ++ post

/-- The reference of a line, if it has one, as `FindAllSubmatch` reports it. -/
def Line.refs : Line → List (List Str)
  | .plain _ => []
  | .ref _ date hash _ => [refOf date hash]

/-- A line is what it says: it holds no line feed; a plain line holds no
substring of the form of a reference; on a line with a reference the date and
the hash hold no slash, the leading literal does not occur before the
reference and the trailing literal does not occur after it. -/
def Line.WellFormed : Line → Prop
  | .plain t => newline ∉ t ∧ ¬ HasRef t
  | .ref pre date hash post =>
    newline ∉ pre ∧ newline ∉ date ∧ newline ∉ hash ∧ newline ∉ post
      ∧ slash ∉ date ∧ slash ∉ hash
      ∧ (∀ a b : Str, pre ++ stmtHead = a ++ stmtHead ++ b → b = [])
      ∧ ¬ Occurs stmtTail post

/-- The listing made of the given lines, separated by line feeds. -/
def bodyOf : List Line → Str
  | [] => []
  | [l] => l.text
  | l :: l2 :: ls => l.text ++ newline :: bodyOf (l2 :: ls)

/-- The references of the lines, one entry per line with a reference, in order. -/
def refsOf : List Line → List (List Str)
  | [] => []
  | l :: ls => l.refs ++ refsOf ls

/-- What follows a line: the end of the text, or a line feed and more text. -/
def lineBreak : Option Str → Str
  | none => []
  | some rest => newline :: rest

/-- The matches found after a line. -/
def afterBreak : Option Str → List (List Str)
  | none => []
  | some rest => reStatements.findAllAux 0 false rest

/-- A listing in which the same reference stands on two lines. -/
def pageRepeated : Str :=
  linkTo "20230101".toList "abc".toList ++ [newline] ++ linkTo "20230101".toList "abc".toList

/-- A listing in which two references share one line. -/
def pageOneLine : Str :=
  linkTo "20230101".toList "abc".toList ++ " ".toList ++ linkTo "20230201".toList "def".toList

/-- A listing of three lines: a reference, plain text, and the same reference
again. -/
def linesExample : List Line :=
  [.ref "<a href='".toList "20230101".toList "abc".toList "'>pdf</a>".toList,
   .plain "<p>older statements</p>".toList,
   .ref "<a href='".toList "20230101".toList "abc".toList "'>pdf</a>".toList]

/-! # Theorems -/

set_option maxRecDepth 100000

/-! ## Calls of the client -/

/-- A call of the client is turned down before anything is sent, or the request
is issued and fails, or the request is issued and answered. -/
theorem send_cases (st : Run) (w : World) (r : Request) :
    (∃ e, st.send w r = (st, .err e))
    ∨ (∃ e, st.send w r
        = (⟨st.trace ++ [Event.request r], st.exchanges + 1, st.clock⟩, .err e))
    ∨ (∃ resp, answer w st.exchanges r = .ok resp
        ∧ st.send w r
          = (⟨st.trace ++ [Event.request r], st.exchanges + 1, st.clock⟩, .ok resp)) := by
  unfold Run.send answer
  cases hr : refusal w r with
  | some e => exact Or.inl ⟨e, rfl⟩
  | none =>
    cases hw : w.roundTrip st.exchanges r with
    | err e => exact Or.inr (Or.inl ⟨e, rfl⟩)
    | ok resp => exact Or.inr (Or.inr ⟨resp, rfl, rfl⟩)

theorem send_of_answer (st : Run) (w : World) (r : Request) (resp : Response)
    (h : answer w st.exchanges r = .ok resp) :
    st.send w r = (⟨st.trace ++ [Event.request r], st.exchanges + 1, st.clock⟩, .ok resp) := by
  unfold answer at h
  unfold Run.send
  cases hr : refusal w r with
  | some e =>
    rw [hr] at h
    exact Result.noConfusion h
  | none =>
    rw [hr] at h
    simp only [] at h ⊢
    rw [h]

/-- A call of the client adds at most its own request to the trace. -/
theorem send_trace (st : Run) (w : World) (r : Request) :
    ∃ reqs : List Request, (st.send w r).1.trace = st.trace ++ reqs.map Event.request := by
  rcases send_cases st w r with ⟨e, h⟩ | ⟨e, h⟩ | ⟨resp, _, h⟩
  · exact ⟨[], by rw [h]; simp⟩
  · exact ⟨[r], by rw [h]; simp⟩
  · exact ⟨[r], by rw [h]; simp⟩

/-- A URL with a control character before its fragment is turned down in every
world: the call returns the error and no request is issued. -/
theorem send_of_control_character (st : Run) (w : World) (r : Request)
    (h : stringContainsCTLByte (r.url.takeWhile (fun c => c != Char.ofNat 35)) = true) :
    st.send w r = (st, .err "net/url: invalid control character in URL".toList) := by
  unfold Run.send refusal
  rw [if_pos h]

/-- A reference whose hash holds a tab is not downloaded in any world: the
`client.Get` of line 178 fails before anything is sent and the run is fatal. -/
theorem download_of_tab_in_hash (w : World) (st : LoopState) :
    download w st (refOf "20230101".toList [Char.ofNat 97, Char.ofNat 9, Char.ofNat 98])
      = .error (st.run, .text "net/url: invalid control character in URL".toList) := by
  unfold download
  rw [send_of_control_character st.run w _ (by decide)]

/-! ## The matcher: literals and the greedy star -/

theorem stripLit_eq_some (l s rest : Str) : stripLit l s = some rest ↔ s = l ++ rest := by
  induction l generalizing s with
  | nil => simp [stripLit, eq_comm]
  | cons c cs ih =>
    cases s with
    | nil => simp [stripLit]
    | cons x xs =>
      by_cases hx : x = c
      · subst hx
        simp [stripLit, ih]
      · simp [stripLit, hx]

theorem stripLit_append (l rest : Str) : stripLit l (l ++ rest) = some rest :=
  (stripLit_eq_some l (l ++ rest) rest).2 rfl

theorem stripLit_eq_none (l s : Str) : stripLit l s = none ↔ ∀ rest, s ≠ l ++ rest := by
  constructor
  · intro h rest hs
    rw [(stripLit_eq_some l s rest).2 hs] at h
    exact Option.noConfusion h
  · intro h
    cases hr : stripLit l s with
    | none => rfl
    | some rest => exact absurd ((stripLit_eq_some l s rest).1 hr) (h rest)

/-- A star whose continuation fails on every input that begins with a
character of the class consumes the whole run of such characters. -/
theorem starGreedy_of_stop {R : Type} (p : Char → Bool) (k : Str → Option R)
    (hk : ∀ c cs, p c = true → k (c :: cs) = none) (s : Str) :
    starGreedy p k s = k (s.dropWhile p) := by
  induction s with
  | nil => rfl
  | cons c cs ih =>
    by_cases hc : p c = true
    · simp only [starGreedy, hc, if_true, List.dropWhile_cons_of_pos, ih, hk c cs hc]
      cases k (List.dropWhile p cs) <;> rfl
    · simp only [starGreedy, hc, List.dropWhile_cons_of_neg, Bool.false_eq_true, if_false,
        not_false_eq_true]

/-- When the greedy star fails, the continuation fails after every run of
characters of the class. -/
theorem starGreedy_eq_none {R : Type} (p : Char → Bool) (k : Str → Option R) (s : Str)
    (h : starGreedy p k s = none) (a b : Str) (hs : s = a ++ b) (ha : ∀ c ∈ a, p c = true) :
    k b = none := by
  induction s generalizing a with
  | nil =>
    have hb : b = [] := by
      cases a with
      | nil => simpa using hs.symm
      | cons x xs => simp at hs
    subst hb
    simpa [starGreedy] using h
  | cons c cs ih =>
    cases a with
    | nil =>
      simp only [List.nil_append] at hs
      subst hs
      by_cases hc : p c = true
      · simp only [starGreedy, hc, if_true] at h
        cases hr : starGreedy p k cs with
        | none => simpa [hr] using h
        | some r => simp [hr] at h
      · simpa [starGreedy, hc] using h
    | cons x xs =>
      simp only [List.cons_append, List.cons.injEq] at hs
      obtain ⟨hx, hxs⟩ := hs
      subst hx
      have hc : p c = true := ha c (List.mem_cons_self _ _)
      simp only [starGreedy, hc, if_true] at h
      cases hr : starGreedy p k cs with
      | none => exact ih hr xs hxs (fun y hy => ha y (List.mem_cons_of_mem _ hy))
      | some r => simp [hr] at h

/-- When the greedy star succeeds, its result is the result of the continuation
after some run of characters of the class, and the continuation fails after
every longer run. -/
theorem starGreedy_eq_some {R : Type} (p : Char → Bool) (k : Str → Option R) (s : Str) (r : R)
    (h : starGreedy p k s = some r) :
    ∃ a b, s = a ++ b ∧ (∀ c ∈ a, p c = true) ∧ k b = some r
      ∧ ∀ a1 b1, s = a1 ++ b1 → (∀ c ∈ a1, p c = true) → a.length < a1.length → k b1 = none := by
  induction s with
  | nil =>
    refine ⟨[], [], rfl, by simp, by simpa [starGreedy] using h, ?_⟩
    intro a1 b1 hs _ hlt
    cases a1 with
    | nil => simp at hlt
    | cons x xs => simp at hs
  | cons c cs ih =>
    by_cases hc : p c = true
    · simp only [starGreedy, hc, if_true] at h
      cases hr : starGreedy p k cs with
      | some r1 =>
        simp only [hr, Option.some.injEq] at h
        subst h
        obtain ⟨a, b, hs, ha, hk, hmax⟩ := ih hr
        refine ⟨c :: a, b, by simp [hs], ?_, hk, ?_⟩
        · intro y hy
          rcases List.mem_cons.1 hy with rfl | hy
          · exact hc
          · exact ha y hy
        · intro a1 b1 hs1 ha1 hlt
          cases a1 with
          | nil => simp at hlt
          | cons x xs =>
            simp only [List.cons_append, List.cons.injEq] at hs1
            exact hmax xs b1 hs1.2 (fun y hy => ha1 y (List.mem_cons_of_mem _ hy))
              (by simpa using hlt)
      | none =>
        simp only [hr] at h
        refine ⟨[], c :: cs, rfl, by simp, h, ?_⟩
        intro a1 b1 hs1 ha1 hlt
        cases a1 with
        | nil => simp at hlt
        | cons x xs =>
          simp only [List.cons_append, List.cons.injEq] at hs1
          exact starGreedy_eq_none p k cs hr xs b1 hs1.2
            (fun y hy => ha1 y (List.mem_cons_of_mem _ hy))
    · simp only [starGreedy, hc, Bool.false_eq_true, if_false] at h
      refine ⟨[], c :: cs, rfl, by simp, h, ?_⟩
      intro a1 b1 hs1 ha1 hlt
      cases a1 with
      | nil => simp at hlt
      | cons x xs =>
        simp only [List.cons_append, List.cons.injEq] at hs1
        exact absurd (ha1 x (List.mem_cons_self _ _)) (by rw [← hs1.1]; exact hc)

theorem dropWhile_append_stop (p : Char → Bool) (a b : Str) (x : Char)
    (ha : ∀ c ∈ a, p c = true) (hx : p x = false) : (a ++ x :: b).dropWhile p = x :: b := by
  induction a with
  | nil => simp [List.dropWhile, hx]
  | cons c cs ih =>
    have hc : p c = true := ha c (List.mem_cons_self _ _)
    simp only [List.cons_append, List.dropWhile_cons_of_pos hc]
    exact ih (fun y hy => ha y (List.mem_cons_of_mem _ hy))

theorem takeWhile_append_stop (p : Char → Bool) (a b : Str) (x : Char)
    (ha : ∀ c ∈ a, p c = true) (hx : p x = false) : (a ++ x :: b).takeWhile p = a := by
  induction a with
  | nil => simp [List.takeWhile, hx]
  | cons c cs ih =>
    have hc : p c = true := ha c (List.mem_cons_self _ _)
    simp only [List.cons_append, List.takeWhile_cons_of_pos hc]
    rw [ih (fun y hy => ha y (List.mem_cons_of_mem _ hy))]

theorem take_length_sub_dropWhile (p : Char → Bool) (s : Str) :
    s.take (s.length - (s.dropWhile p).length) = s.takeWhile p := by
  have h := List.takeWhile_append_dropWhile p s
  have hl := congrArg List.length h
  simp only [List.length_append] at hl
  have hn : s.length - (s.dropWhile p).length = (s.takeWhile p).length := by omega
  have ht : List.take (s.takeWhile p).length (s.takeWhile p ++ s.dropWhile p) = s.takeWhile p :=
    List.take_left' rfl
  rw [h] at ht
  rw [hn, ht]

theorem take_length_sub_suffix (a b : Str) : (a ++ b).take ((a ++ b).length - b.length) = a := by
  simp

/-! ## The four login-page patterns -/

theorem isSpace_colon : isSpace colon = false := by decide

theorem isSpace_quote : isSpace quote = false := by decide

theorem notQuote_quote : notQuote quote = false := by decide

theorem notQuote_iff (c : Char) : notQuote c = true ↔ c ≠ quote := by
  simp [notQuote]

/-- Closed form of a match of `key\s*:\s*'([^']*)'` at the front of `s`. -/
theorem matchAt_keyValue (key s : Str) :
    (keyValue key).matchAt s =
      match stripLit key s with
      | none => none
      | some s1 =>
        match stripLit [colon] (s1.dropWhile isSpace) with
        | none => none
        | some s3 =>
          match stripLit [quote] (s3.dropWhile isSpace) with
          | none => none
          | some s5 =>
            match stripLit [quote] (s5.dropWhile notQuote) with
            | none => none
            | some s7 => some [s.take (s.length - s7.length), s5.takeWhile notQuote] := by
  simp only [Regex.matchAt, keyValue, Regex.run, Regex.numSubexp]
  cases h1 : stripLit key s with
  | none => rfl
  | some s1 =>
    simp only []
    rw [starGreedy_of_stop isSpace _ (by
      intro c cs hc
      have : c ≠ colon := by
        rintro rfl
        rw [isSpace_colon] at hc
        exact Bool.noConfusion hc
      simp [stripLit, this])]
    cases h3 : stripLit [colon] (s1.dropWhile isSpace) with
    | none => rfl
    | some s3 =>
      simp only []
      rw [starGreedy_of_stop isSpace _ (by
        intro c cs hc
        have : c ≠ quote := by
          rintro rfl
          rw [isSpace_quote] at hc
          exact Bool.noConfusion hc
        simp [stripLit, this])]
      cases h5 : stripLit [quote] (s3.dropWhile isSpace) with
      | none => rfl
      | some s5 =>
        simp only []
        rw [starGreedy_of_stop notQuote _ (by
          intro c cs hc
          have : c ≠ quote := (notQuote_iff c).1 hc
          simp [stripLit, this])]
        cases h7 : stripLit [quote] (s5.dropWhile notQuote) with
        | none => rfl
        | some s7 =>
          simp only [take_length_sub_dropWhile]
          rfl

/-- A match of `key\s*:\s*'([^']*)'` at the front of `s`, spelled out. -/
theorem matchAt_keyValue_eq_some (key s : Str) (m : List Str) :
    (keyValue key).matchAt s = some m ↔
      ∃ ws1 ws2 v post : Str, (∀ c ∈ ws1, isSpace c = true) ∧ (∀ c ∈ ws2, isSpace c = true)
        ∧ quote ∉ v
        ∧ s = key ++ ws1 ++ [colon] ++ ws2 ++ [quote] ++ v ++ [quote] ++ post
        ∧ m = [key ++ ws1 ++ [colon] ++ ws2 ++ [quote] ++ v ++ [quote], v] := by
  rw [matchAt_keyValue]
  constructor
  · intro h
    cases h1 : stripLit key s with
    | none => simp [h1] at h
    | some s1 =>
      simp only [h1] at h
      cases h3 : stripLit [colon] (s1.dropWhile isSpace) with
      | none => simp [h3] at h
      | some s3 =>
        simp only [h3] at h
        cases h5 : stripLit [quote] (s3.dropWhile isSpace) with
        | none => simp [h5] at h
        | some s5 =>
          simp only [h5] at h
          cases h7 : stripLit [quote] (s5.dropWhile notQuote) with
          | none => simp [h7] at h
          | some s7 =>
            simp only [h7, Option.some.injEq] at h
            have e1 := (stripLit_eq_some _ _ _).1 h1
            have e3 := (stripLit_eq_some _ _ _).1 h3
            have e5 := (stripLit_eq_some _ _ _).1 h5
            have e7 := (stripLit_eq_some _ _ _).1 h7
            have d1 := List.takeWhile_append_dropWhile isSpace s1
            have d3 := List.takeWhile_append_dropWhile isSpace s3
            have d5 := List.takeWhile_append_dropWhile notQuote s5
            have hs : s = key ++ s1.takeWhile isSpace ++ [colon] ++ s3.takeWhile isSpace
                ++ [quote] ++ s5.takeWhile notQuote ++ [quote] ++ s7 := by
              rw [e1]
              conv_lhs => rw [← d1, e3]
              conv_lhs => rw [← d3, e5]
              conv_lhs => rw [← d5, e7]
              simp only [List.append_assoc]
            refine ⟨s1.takeWhile isSpace, s3.takeWhile isSpace, s5.takeWhile notQuote, s7,
              fun c hc => (List.mem_takeWhile_imp hc), fun c hc => (List.mem_takeWhile_imp hc),
              ?_, hs, ?_⟩
            · intro hq
              have := List.mem_takeWhile_imp hq
              rw [notQuote_quote] at this
              exact Bool.noConfusion this
            · rw [← h]
              congr 1
              conv_lhs => rw [hs]
              exact take_length_sub_suffix _ _
  · rintro ⟨ws1, ws2, v, post, h1, h2, hv, hs, hm⟩
    subst hs hm
    have hv1 : ∀ c ∈ v, notQuote c = true := by
      intro c hc
      rw [notQuote_iff]
      rintro rfl
      exact hv hc
    have a1 : stripLit key (key ++ ws1 ++ [colon] ++ ws2 ++ [quote] ++ v ++ [quote] ++ post)
        = some (ws1 ++ colon :: (ws2 ++ quote :: (v ++ quote :: post))) := by
      rw [stripLit_eq_some]
      simp
    simp only [a1, dropWhile_append_stop isSpace ws1 _ colon h1 isSpace_colon]
    have a3 : stripLit [colon] (colon :: (ws2 ++ quote :: (v ++ quote :: post)))
        = some (ws2 ++ quote :: (v ++ quote :: post)) := by
      rw [stripLit_eq_some]
      simp
    simp only [a3, dropWhile_append_stop isSpace ws2 _ quote h2 isSpace_quote]
    have a5 : stripLit [quote] (quote :: (v ++ quote :: post)) = some (v ++ quote :: post) := by
      rw [stripLit_eq_some]
      simp
    simp only [a5, dropWhile_append_stop notQuote v _ quote hv1 notQuote_quote,
      takeWhile_append_stop notQuote v _ quote hv1 notQuote_quote]
    have a7 : stripLit [quote] (quote :: post) = some post := by
      rw [stripLit_eq_some]
      simp
    simp only [a7, Option.some.injEq, List.cons.injEq, and_true]
    exact take_length_sub_suffix _ _

/-! ## `FindSubmatch`: the leftmost match -/

theorem FindSubmatch_eq_nil (re : Regex) (hne : ∀ s m, re.matchAt s = some m → m ≠ [])
    (body : Str) :
    re.FindSubmatch body = [] ↔ ∀ pre rest, body = pre ++ rest → re.matchAt rest = none := by
  induction body with
  | nil =>
    simp only [Regex.FindSubmatch]
    constructor
    · intro h pre rest hb
      have hr : rest = [] := by
        cases pre with
        | nil => simpa using hb.symm
        | cons x xs => simp at hb
      subst hr
      cases hm : re.matchAt [] with
      | none => rfl
      | some m =>
        rw [hm] at h
        exact absurd h (hne _ _ hm)
    · intro h
      rw [h [] [] rfl]
      rfl
  | cons c cs ih =>
    simp only [Regex.FindSubmatch]
    cases hm : re.matchAt (c :: cs) with
    | some m =>
      simp only []
      constructor
      · intro h
        exact absurd h (hne _ _ hm)
      · intro h
        rw [h [] (c :: cs) rfl] at hm
        exact Option.noConfusion hm
    | none =>
      simp only []
      rw [ih]
      constructor
      · intro h pre rest hb
        cases pre with
        | nil =>
          simp only [List.nil_append] at hb
          rw [← hb]
          exact hm
        | cons x xs =>
          simp only [List.cons_append, List.cons.injEq] at hb
          exact h xs rest hb.2
      · intro h pre rest hb
        exact h (c :: pre) rest (by simp [hb])

theorem FindSubmatch_eq_cons (re : Regex) (body : Str) (m : List Str) (hm : m ≠ []) :
    re.FindSubmatch body = m ↔
      ∃ pre rest, body = pre ++ rest ∧ re.matchAt rest = some m
        ∧ ∀ pre1 rest1, body = pre1 ++ rest1 → pre1.length < pre.length
            → re.matchAt rest1 = none := by
  induction body with
  | nil =>
    simp only [Regex.FindSubmatch]
    constructor
    · intro h
      cases h0 : re.matchAt [] with
      | none =>
        rw [h0] at h
        exact absurd h.symm hm
      | some m0 =>
        rw [h0] at h
        simp only [Option.getD_some] at h
        subst h
        exact ⟨[], [], rfl, h0, fun pre1 _ _ hl => absurd hl (by simp)⟩
    · rintro ⟨pre, rest, hb, hr, _⟩
      have hr0 : rest = [] := by
        cases pre with
        | nil => simpa using hb.symm
        | cons x xs => simp at hb
      subst hr0
      rw [hr]
      rfl
  | cons c cs ih =>
    simp only [Regex.FindSubmatch]
    cases h0 : re.matchAt (c :: cs) with
    | some m0 =>
      simp only []
      constructor
      · intro h
        subst h
        exact ⟨[], c :: cs, rfl, h0, fun pre1 _ _ hl => absurd hl (by simp)⟩
      · rintro ⟨pre, rest, hb, hr, hmin⟩
        cases pre with
        | nil =>
          simp only [List.nil_append] at hb
          rw [← hb, h0] at hr
          exact Option.some.inj hr
        | cons x xs =>
          have := hmin [] (c :: cs) rfl (by simp)
          rw [h0] at this
          exact Option.noConfusion this
    | none =>
      simp only []
      rw [ih]
      constructor
      · rintro ⟨pre, rest, hb, hr, hmin⟩
        refine ⟨c :: pre, rest, by simp [hb], hr, ?_⟩
        intro pre1 rest1 hb1 hl
        cases pre1 with
        | nil =>
          simp only [List.nil_append] at hb1
          rw [← hb1]
          exact h0
        | cons x xs =>
          simp only [List.cons_append, List.cons.injEq] at hb1
          exact hmin xs rest1 hb1.2 (by simpa using hl)
      · rintro ⟨pre, rest, hb, hr, hmin⟩
        cases pre with
        | nil =>
          simp only [List.nil_append] at hb
          rw [← hb, h0] at hr
          exact Option.noConfusion hr
        | cons x xs =>
          simp only [List.cons_append, List.cons.injEq] at hb
          refine ⟨xs, rest, hb.2, hr, ?_⟩
          intro pre1 rest1 hb1 hl
          exact hmin (c :: pre1) rest1 (by simp [hb1]) (by simpa using hl)

/-! ## Token extraction against the specification's words -/

theorem matchAt_keyValue_ne_nil (key s : Str) (m : List Str)
    (h : (keyValue key).matchAt s = some m) : m ≠ [] := by
  obtain ⟨_, _, _, _, _, _, _, _, hm⟩ := (matchAt_keyValue_eq_some key s m).1 h
  rw [hm]
  exact List.cons_ne_nil _ _

theorem occursAt_iff (key body pre v : Str) :
    OccursAt key body pre v ↔
      ∃ rest whole, body = pre ++ rest ∧ (keyValue key).matchAt rest = some [whole, v] := by
  constructor
  · rintro ⟨ws1, ws2, post, h1, h2, hv, hb⟩
    exact ⟨_, _, hb, (matchAt_keyValue_eq_some key _ _).2 ⟨ws1, ws2, v, post, h1, h2, hv, rfl, rfl⟩⟩
  · rintro ⟨rest, whole, hb, hm⟩
    obtain ⟨ws1, ws2, v1, post, h1, h2, hv, hs, hm1⟩ := (matchAt_keyValue_eq_some key _ _).1 hm
    simp only [List.cons.injEq, and_true] at hm1
    obtain ⟨_, rfl⟩ := hm1
    exact ⟨ws1, ws2, post, h1, h2, hv, by rw [hb, hs]⟩

theorem hasPattern_iff (key body : Str) :
    HasPattern key body ↔ (keyValue key).FindSubmatch body ≠ [] := by
  rw [Ne, FindSubmatch_eq_nil _ (matchAt_keyValue_ne_nil key)]
  constructor
  · rintro ⟨pre, v, hocc⟩ h
    obtain ⟨rest, whole, hb, hm⟩ := (occursAt_iff key body pre v).1 hocc
    rw [h pre rest hb] at hm
    exact Option.noConfusion hm
  · intro h
    by_contra hno
    apply h
    intro pre rest hb
    cases hm : (keyValue key).matchAt rest with
    | none => rfl
    | some m =>
      exfalso
      apply hno
      obtain ⟨ws1, ws2, v, post, h1, h2, hv, hs, _⟩ := (matchAt_keyValue_eq_some key _ _).1 hm
      exact ⟨pre, v, ws1, ws2, post, h1, h2, hv, by rw [hb, hs]⟩

theorem firstValue_iff (key body v : Str) :
    FirstValue key body v ↔ ∃ whole, (keyValue key).FindSubmatch body = [whole, v] := by
  constructor
  · rintro ⟨pre, hocc, hmin⟩
    obtain ⟨rest, whole, hb, hm⟩ := (occursAt_iff key body pre v).1 hocc
    refine ⟨whole, (FindSubmatch_eq_cons _ body _ (List.cons_ne_nil _ _)).2
      ⟨pre, rest, hb, hm, ?_⟩⟩
    intro pre1 rest1 hb1 hl
    cases hm1 : (keyValue key).matchAt rest1 with
    | none => rfl
    | some m1 =>
      exfalso
      obtain ⟨ws1, ws2, v1, post, h1, h2, hv, hs, _⟩ :=
        (matchAt_keyValue_eq_some key _ _).1 hm1
      have := hmin pre1 v1 ⟨ws1, ws2, post, h1, h2, hv, by rw [hb1, hs]⟩
      omega
  · rintro ⟨whole, hf⟩
    obtain ⟨pre, rest, hb, hm, hmin⟩ :=
      (FindSubmatch_eq_cons _ body _ (List.cons_ne_nil _ _)).1 hf
    refine ⟨pre, (occursAt_iff key body pre v).2 ⟨rest, whole, hb, hm⟩, ?_⟩
    intro pre1 v1 hocc1
    obtain ⟨rest1, whole1, hb1, hm1⟩ := (occursAt_iff key body pre1 v1).1 hocc1
    by_contra hlt
    rw [hmin pre1 rest1 hb1 (by omega)] at hm1
    exact Option.noConfusion hm1

/-- The shape of a successful `FindSubmatch` of a login-page pattern. -/
theorem FindSubmatch_keyValue_shape (key body : Str)
    (h : (keyValue key).FindSubmatch body ≠ []) :
    ∃ whole v, (keyValue key).FindSubmatch body = [whole, v] := by
  obtain ⟨pre, rest, _, hm, _⟩ := (FindSubmatch_eq_cons _ body _ h).1 rfl
  obtain ⟨ws1, ws2, v, post, _, _, _, _, hm1⟩ := (matchAt_keyValue_eq_some key _ _).1 hm
  exact ⟨_, v, hm1⟩

theorem firstValue_of_find (key body whole v : Str)
    (h : (keyValue key).FindSubmatch body = [whole, v]) (v1 : Str) :
    FirstValue key body v1 ↔ v1 = v := by
  rw [firstValue_iff]
  constructor
  · rintro ⟨whole1, h1⟩
    rw [h] at h1
    simp only [List.cons.injEq, and_true] at h1
    exact h1.2.symm
  · rintro rfl
    exact ⟨whole, h⟩

theorem main_of_extract_error (w : World) (f : Flags) (body : Str) (d : Diag)
    (hf : missingRequired f = false) (hget : answer w 0 (.get urlLOGIN) = .ok ⟨.ok body⟩)
    (hd : extractTokens body = .error d) :
    main w f = ⟨[Event.request (.get urlLOGIN), Event.fatal d], 1⟩ := by
  unfold main
  simp only []
  rw [if_neg (by rw [hf]; exact Bool.false_ne_true), send_of_answer _ w _ _ hget]
  simp only []
  rw [hd]
  rfl

/-- C2 (amended): the four patterns are the key `'login'` (the word between
single quotes, as line 70 writes it) and the keys `logout`, `urlDone` and
`recaptchaSitekey`, each followed by optional white space, a colon, optional
white space and a single-quoted literal. When the login page holds the four
patterns, the extraction of lines 70-95 succeeds and each of its four values is
the literal of the first occurrence of its pattern, and no other; when one of
the four patterns is absent, the extraction ends in a diagnostic and every run
that got this login page ends in `log.Fatal` with it, right after the request
of the page. -/
theorem token_extraction (body : Str) :
    (HasPattern keyLogin body → HasPattern keyLogout body → HasPattern keyURLDone body →
        HasPattern keyRecaptcha body →
      ∃ tok : Tokens, extractTokens body = .ok tok
        ∧ (∀ v, FirstValue keyLogin body v ↔ v = tok.login)
        ∧ (∀ v, FirstValue keyLogout body v ↔ v = tok.logout)
        ∧ (∀ v, FirstValue keyURLDone body v ↔ v = tok.urlDone)
        ∧ (∀ v, FirstValue keyRecaptcha body v ↔ v = tok.recaptcha))
    ∧ (¬ (HasPattern keyLogin body ∧ HasPattern keyLogout body ∧ HasPattern keyURLDone body
          ∧ HasPattern keyRecaptcha body) →
      ∃ d : Diag, extractTokens body = .error d
        ∧ ∀ (w : World) (f : Flags), missingRequired f = false →
            answer w 0 (.get urlLOGIN) = .ok ⟨.ok body⟩ →
            main w f = ⟨[Event.request (.get urlLOGIN), Event.fatal d], 1⟩) := by
  constructor
  · intro h1 h2 h3 h4
    rw [hasPattern_iff] at h1 h2 h3 h4
    obtain ⟨w1, v1, e1⟩ := FindSubmatch_keyValue_shape _ _ h1
    obtain ⟨w2, v2, e2⟩ := FindSubmatch_keyValue_shape _ _ h2
    obtain ⟨w3, v3, e3⟩ := FindSubmatch_keyValue_shape _ _ h3
    obtain ⟨w4, v4, e4⟩ := FindSubmatch_keyValue_shape _ _ h4
    refine ⟨⟨v1, v2, v3, v4⟩, ?_, firstValue_of_find _ _ _ _ e1, firstValue_of_find _ _ _ _ e2,
      firstValue_of_find _ _ _ _ e3, firstValue_of_find _ _ _ _ e4⟩
    simp [extractTokens, reLogin, reLogout, reURLDone, reRecaptcha, e1, e2, e3, e4]
  · intro hno
    have key : ∃ d : Diag, extractTokens body = .error d := by
      simp only [hasPattern_iff, Ne] at hno
      unfold extractTokens
      simp only [reLogin, reLogout, reURLDone, reRecaptcha, List.length_eq_zero]
      by_cases h1 : (keyValue keyLogin).FindSubmatch body = []
      · exact ⟨_, by rw [if_pos h1]⟩
      · by_cases h2 : (keyValue keyLogout).FindSubmatch body = []
        · exact ⟨_, by rw [if_neg h1, if_pos h2]⟩
        · by_cases h3 : (keyValue keyURLDone).FindSubmatch body = []
          · exact ⟨_, by rw [if_neg h1, if_neg h2, if_pos h3]⟩
          · by_cases h4 : (keyValue keyRecaptcha).FindSubmatch body = []
            · exact ⟨_, by rw [if_neg h1, if_neg h2, if_neg h3, if_pos h4]⟩
            · exact absurd ⟨h1, h2, h3, h4⟩ hno
    obtain ⟨d, hd⟩ := key
    exact ⟨d, hd, fun w f hf hget => main_of_extract_error w f body d hf hget hd⟩

/-- C2, worked instance: a page with the four tokens yields them, and a page
without the logout token ends the run in `log.Fatal`. -/
theorem token_extraction_witness :
    (∃ tok : Tokens, extractTokens pageLogin = .ok tok
        ∧ (∀ v, FirstValue keyLogin pageLogin v ↔ v = tok.login)
        ∧ (∀ v, FirstValue keyLogout pageLogin v ↔ v = tok.logout)
        ∧ (∀ v, FirstValue keyURLDone pageLogin v ↔ v = tok.urlDone)
        ∧ (∀ v, FirstValue keyRecaptcha pageLogin v ↔ v = tok.recaptcha))
    ∧ (∃ d : Diag, extractTokens pageLoginBroken = .error d
        ∧ ∀ (w : World) (f : Flags), missingRequired f = false →
            answer w 0 (.get urlLOGIN) = .ok ⟨.ok pageLoginBroken⟩ →
            main w f = ⟨[Event.request (.get urlLOGIN), Event.fatal d], 1⟩) :=
  ⟨(token_extraction pageLogin).1
      ((hasPattern_iff _ _).2 (by decide)) ((hasPattern_iff _ _).2 (by decide))
      ((hasPattern_iff _ _).2 (by decide)) ((hasPattern_iff _ _).2 (by decide)),
    (token_extraction pageLoginBroken).2
      (fun h => absurd h.2.1 (by rw [hasPattern_iff]; decide))⟩

/-- C2, counterexample: a login page that holds a single-quoted literal after
each of the keys `login`, `logout`, `urlDone` and `recaptchaSitekey`, the key
login bare like the other three: the extraction is fatal with
`Unable to find 'login'`. -/
theorem bare_login_key_counterexample :
    HasPattern "login".toList pageLoginBare
    ∧ HasPattern "logout".toList pageLoginBare
    ∧ HasPattern "urlDone".toList pageLoginBare
    ∧ HasPattern "recaptchaSitekey".toList pageLoginBare
    ∧ extractTokens pageLoginBare = .error (.text "Unable to find 'login'".toList) :=
  ⟨(hasPattern_iff _ _).2 (by decide), (hasPattern_iff _ _).2 (by decide),
    (hasPattern_iff _ _).2 (by decide), (hasPattern_iff _ _).2 (by decide), by decide⟩

theorem dot_iff (c : Char) : dot c = true ↔ c ≠ newline := by
  simp [dot]

theorem dot_slash : dot slash = true := by decide

theorem all_dot_iff (a : Str) : (∀ c ∈ a, dot c = true) ↔ newline ∉ a := by
  constructor
  · intro h hn
    exact (dot_iff newline).1 (h newline hn) rfl
  · intro h c hc
    rw [dot_iff]
    rintro rfl
    exact h hc

/-- Closed form of a match of `reStatements` at the front of `s`. -/
theorem matchAt_reStatements (s : Str) :
    reStatements.matchAt s =
      match stripLit stmtHead s with
      | none => none
      | some s1 => starGreedy dot (afterDate s s1) s1 := by
  simp only [Regex.matchAt, reStatements, Regex.run, Regex.numSubexp]
  cases h1 : stripLit stmtHead s with
  | none => rfl
  | some s1 =>
    simp only []
    congr 1
    funext rest
    simp only [afterDate]
    cases h3 : stripLit [slash] rest with
    | none => rfl
    | some s3 =>
      simp only []
      congr 1
      funext rest2
      simp only [afterHash]
      cases h5 : stripLit stmtTail rest2 with
      | none => rfl
      | some s5 => rfl

/-- A match of `reStatements` at the front of `s`, spelled out: the leading
literal, a date and a hash without line feed, the hash without slash, and the
trailing literal. -/
theorem matchAt_reStatements_eq_some (s : Str) (m : List Str)
    (h : reStatements.matchAt s = some m) :
    ∃ date hash rest : Str, s = stmtHead ++ date ++ [slash] ++ hash ++ stmtTail ++ rest
      ∧ m = [stmtHead ++ date ++ [slash] ++ hash ++ stmtTail, date, hash]
      ∧ newline ∉ date ∧ newline ∉ hash ∧ slash ∉ hash := by
  rw [matchAt_reStatements] at h
  cases h1 : stripLit stmtHead s with
  | none => simp [h1] at h
  | some s1 =>
    simp only [h1] at h
    obtain ⟨a, b, hs1, ha, hk, hmax⟩ := starGreedy_eq_some dot _ s1 m h
    simp only [afterDate] at hk
    cases h3 : stripLit [slash] b with
    | none => simp [h3] at hk
    | some s3 =>
      simp only [h3] at hk
      obtain ⟨a2, b2, hs3, ha2, hk2, _⟩ := starGreedy_eq_some dot _ s3 m hk
      simp only [afterHash] at hk2
      cases h5 : stripLit stmtTail b2 with
      | none => simp [h5] at hk2
      | some s5 =>
        simp only [h5, Option.some.injEq] at hk2
        have e1 := (stripLit_eq_some _ _ _).1 h1
        have e3 := (stripLit_eq_some _ _ _).1 h3
        have e5 := (stripLit_eq_some _ _ _).1 h5
        have hs : s = stmtHead ++ a ++ [slash] ++ a2 ++ stmtTail ++ s5 := by
          rw [e1, hs1, e3, hs3, e5]
          simp only [List.append_assoc]
        refine ⟨a, a2, s5, hs, ?_, (all_dot_iff a).1 ha, (all_dot_iff a2).1 ha2, ?_⟩
        · rw [← hk2]
          have t0 : s.take (s.length - s5.length) = stmtHead ++ a ++ [slash] ++ a2 ++ stmtTail := by
            conv_lhs => rw [hs]
            exact take_length_sub_suffix _ _
          have t1 : s1.take (s1.length - b.length) = a := by
            rw [hs1]
            exact take_length_sub_suffix _ _
          have t2 : s3.take (s3.length - b2.length) = a2 := by
            rw [hs3]
            exact take_length_sub_suffix _ _
          rw [t0, t1, t2]
        · intro hsl
          obtain ⟨h1a, h2a, hsplit⟩ := List.append_of_mem hsl
          have hlong := hmax (a ++ slash :: h1a) (slash :: (h2a ++ b2))
            (by rw [hs1, e3, hs3, hsplit]; simp)
            (by
              intro c hc
              rcases List.mem_append.1 hc with hc | hc
              · exact ha c hc
              · rcases List.mem_cons.1 hc with rfl | hc
                · exact dot_slash
                · exact ha2 c (by rw [hsplit]; exact List.mem_append_left _ hc))
            (by simp)
          simp only [afterDate] at hlong
          have hst : stripLit [slash] (slash :: (h2a ++ b2)) = some (h2a ++ b2) := by
            rw [stripLit_eq_some]
            rfl
          simp only [hst] at hlong
          have hno := starGreedy_eq_none dot _ _ hlong h2a b2 rfl
            (fun c hc => ha2 c (by rw [hsplit]; simp [hc]))
          simp [afterHash, h5] at hno

theorem matchAt_reStatements_ne_nil (s : Str) (m : List Str)
    (h : reStatements.matchAt s = some m) : m ≠ [] := by
  obtain ⟨_, _, _, _, hm, _⟩ := matchAt_reStatements_eq_some s m h
  rw [hm]
  exact List.cons_ne_nil _ _

/-! ## `FindAllSubmatch`: every entry is a match at some place of the body -/

theorem mem_findAllAux (re : Regex) (s : Str) (skip : Nat) (adj : Bool) (m : List Str)
    (h : m ∈ re.findAllAux skip adj s) :
    ∃ pre rest, s = pre ++ rest ∧ re.matchAt rest = some m := by
  induction s generalizing skip adj with
  | nil =>
    cases skip with
    | succ n => simp [Regex.findAllAux] at h
    | zero =>
      simp only [Regex.findAllAux] at h
      cases h0 : re.matchAt [] with
      | none => simp [h0] at h
      | some m0 =>
        simp only [h0] at h
        cases adj with
        | true => simp at h
        | false =>
          simp only [Bool.false_eq_true, if_false, List.mem_singleton] at h
          subst h
          exact ⟨[], [], rfl, h0⟩
  | cons c cs ih =>
    have lift : (∃ pre rest, cs = pre ++ rest ∧ re.matchAt rest = some m) →
        ∃ pre rest, c :: cs = pre ++ rest ∧ re.matchAt rest = some m := by
      rintro ⟨pre, rest, hs, hm⟩
      exact ⟨c :: pre, rest, by simp [hs], hm⟩
    cases skip with
    | succ n =>
      simp only [Regex.findAllAux] at h
      exact lift (ih n true h)
    | zero =>
      simp only [Regex.findAllAux] at h
      cases h0 : re.matchAt (c :: cs) with
      | none =>
        simp only [h0] at h
        exact lift (ih 0 false h)
      | some m0 =>
        simp only [h0] at h
        split_ifs at h with hw ha
        · exact lift (ih 0 false h)
        · rcases List.mem_cons.1 h with rfl | h
          · exact ⟨[], c :: cs, rfl, h0⟩
          · exact lift (ih 0 false h)
        · rcases List.mem_cons.1 h with rfl | h
          · exact ⟨[], c :: cs, rfl, h0⟩
          · exact lift (ih _ true h)

/-! ## The layout `20060102` -/

theorem getnum2_eq_some (v rest : Str) (n : Nat) (h : getnum2 v = some (n, rest)) :
    ∃ a b, v = a :: b :: rest ∧ isDigit a = true ∧ isDigit b = true := by
  match v, h with
  | a :: b :: r, h =>
    simp only [getnum2] at h
    split_ifs at h with hd
    simp only [Option.some.injEq, Prod.mk.injEq] at h
    simp only [Bool.and_eq_true] at hd
    exact ⟨a, b, by rw [h.2], hd.1, hd.2⟩
  | [], h => simp [getnum2] at h
  | [_], h => simp [getnum2] at h

/-- A date token that `time.Parse` accepts under `20060102` is a string of
exactly eight decimal digits. -/
theorem parseLayout_eq_some (v : Str) (d : Civil) (h : parseLayout v = some d) :
    v.length = 8 ∧ ∀ c ∈ v, isDigit c = true := by
  match v, h with
  | y0 :: y1 :: y2 :: y3 :: v1, h =>
    simp only [parseLayout] at h
    split_ifs at h with hy
    simp only [Bool.and_eq_true] at hy
    cases h1 : getnum2 v1 with
    | none => simp [h1] at h
    | some p1 =>
      obtain ⟨month, v2⟩ := p1
      simp only [h1] at h
      split_ifs at h with hm
      cases h2 : getnum2 v2 with
      | none => simp [h2] at h
      | some p2 =>
        obtain ⟨day, v3⟩ := p2
        simp only [h2] at h
        split_ifs at h with hx hday
        obtain ⟨a, b, e1, da, db⟩ := getnum2_eq_some _ _ _ h1
        obtain ⟨c, e, e2, dc, de⟩ := getnum2_eq_some _ _ _ h2
        have hv3 : v3 = [] := by
          simpa using hx
        subst e1 e2 hv3
        refine ⟨rfl, ?_⟩
        intro x hx
        simp only [List.mem_cons, List.mem_singleton, List.not_mem_nil, or_false] at hx
        rcases hx with rfl | rfl | rfl | rfl | rfl | rfl | rfl | rfl
        · exact hy.1.1.1
        · exact hy.1.1.2
        · exact hy.1.2
        · exact hy.2
        · exact da
        · exact db
        · exact dc
        · exact de
  | [], h => simp [parseLayout] at h
  | [_], h => simp [parseLayout] at h
  | [_, _], h => simp [parseLayout] at h
  | [_, _, _], h => simp [parseLayout] at h

/-- C9 (amended): every entry of `reStatements.FindAllSubmatch(body)` is
`[path, date, hash]` with `path` exactly `/service/rest/statements/` + date +
`/` + hash + `/downloadPdf`; date and hash hold no line feed and the hash holds
no `/`. The date token is whatever `.*` matched: it is a string of exactly 8
decimal digits whenever it parses under the layout `20060102`, which is the
case for every reference that reaches the download. -/
theorem statement_reference_shape (body : Str) (m : List Str)
    (hm : m ∈ reStatements.FindAllSubmatch body) :
    ∃ date hash : Str,
      m = [stmtHead ++ date ++ [slash] ++ hash ++ stmtTail, date, hash]
      ∧ newline ∉ date ∧ newline ∉ hash ∧ slash ∉ hash
      ∧ (∀ d : Civil, parseLayout date = some d →
          date.length = 8 ∧ ∀ c ∈ date, isDigit c = true) := by
  obtain ⟨pre, rest, _, hmatch⟩ := mem_findAllAux reStatements body 0 false m hm
  obtain ⟨date, hash, _, _, hshape, hd, hh, hs⟩ := matchAt_reStatements_eq_some rest m hmatch
  exact ⟨date, hash, hshape, hd, hh, hs, fun d hp => parseLayout_eq_some date d hp⟩

/-- C9, worked instance: the first reference of the example page. -/
theorem statement_reference_shape_witness :
    refOf "20230101".toList "abc".toList ∈ reStatements.FindAllSubmatch pageStatements
    ∧ ∃ date hash : Str,
      refOf "20230101".toList "abc".toList
        = [stmtHead ++ date ++ [slash] ++ hash ++ stmtTail, date, hash]
      ∧ newline ∉ date ∧ newline ∉ hash ∧ slash ∉ hash
      ∧ (∀ d : Civil, parseLayout date = some d →
          date.length = 8 ∧ ∀ c ∈ date, isDigit c = true) :=
  ⟨by decide, statement_reference_shape pageStatements (refOf "20230101".toList "abc".toList)
    (by decide)⟩

/-- C9, counterexample: on a page that links `/service/rest/statements/latest/x/downloadPdf`
the lister extracts a reference whose date token is `latest`, not 8 digits. -/
theorem date_token_not_eight_digits_counterexample :
    reStatements.FindAllSubmatch (linkTo "latest".toList "x".toList)
      = [refOf "latest".toList "x".toList]
    ∧ ¬ (((refOf "latest".toList "x".toList).getD 1 []).length = 8
        ∧ ∀ c ∈ (refOf "latest".toList "x".toList).getD 1 [], isDigit c = true) := by
  decide

/-! ## Listings with one reference on a line: what `FindAllSubmatch` returns -/

theorem append_split_of_not_mem (x : Char) (a c a1 b1 : Str) (hx : x ∉ a)
    (h : a ++ c = a1 ++ x :: b1) : ∃ a2, a1 = a ++ a2 ∧ c = a2 ++ x :: b1 := by
  induction a generalizing a1 with
  | nil => exact ⟨a1, rfl, h⟩
  | cons y ys ih =>
    cases a1 with
    | nil =>
      simp only [List.cons_append, List.nil_append, List.cons.injEq] at h
      exact absurd (h.1 ▸ List.mem_cons_self y ys) hx
    | cons z zs =>
      simp only [List.cons_append, List.cons.injEq] at h
      obtain ⟨a2, h1, h2⟩ := ih zs (fun hm => hx (List.mem_cons_of_mem _ hm)) h.2
      exact ⟨a2, by rw [h.1, h1]; rfl, h2⟩

theorem first_sep_split (x : Char) (a b a1 b1 : Str) (hx : x ∉ a)
    (h : a ++ x :: b = a1 ++ x :: b1) :
    (a1 = a ∧ b1 = b) ∨ ∃ a2, a1 = a ++ x :: a2 ∧ b = a2 ++ x :: b1 := by
  obtain ⟨a2, h1, h2⟩ := append_split_of_not_mem x a (x :: b) a1 b1 hx h
  cases a2 with
  | nil =>
    simp only [List.nil_append, List.cons.injEq, true_and] at h2
    exact Or.inl ⟨by simpa using h1, h2.symm⟩
  | cons y ys =>
    simp only [List.cons_append, List.cons.injEq] at h2
    exact Or.inr ⟨ys, by rw [h1, h2.1], h2.2⟩

/-- A text without line feed that starts a line lies within that line. -/
theorem within_line (t : Str) (nx : Option Str) (m rest : Str) (hm : newline ∉ m)
    (h : t ++ lineBreak nx = m ++ rest) : ∃ b, t = m ++ b := by
  rcases List.append_eq_append_iff.1 h with ⟨a1, h1, h2⟩ | ⟨c1, h1, _⟩
  · cases a1 with
    | nil => exact ⟨[], by rw [h1]; simp⟩
    | cons y ys =>
      exfalso
      cases nx with
      | none => simp [lineBreak] at h2
      | some r =>
        simp only [lineBreak, List.cons_append, List.cons.injEq] at h2
        apply hm
        rw [h1, ← h2.1]
        simp
  · exact ⟨c1, h1⟩

theorem stmtHead_no_newline : newline ∉ stmtHead := by decide

theorem stmtTail_no_newline : newline ∉ stmtTail := by decide

theorem stmtTail_eq : stmtTail = slash :: "downloadPdf".toList := by decide

theorem word_no_slash : slash ∉ "downloadPdf".toList := by decide

theorem newline_ne_slash : newline ≠ slash := by decide

theorem refOf_no_newline (date hash : Str) (hd : newline ∉ date) (hh : newline ∉ hash) :
    newline ∉ stmtHead ++ date ++ [slash] ++ hash ++ stmtTail := by
  simp only [List.mem_append, List.mem_singleton, not_or]
  exact ⟨⟨⟨⟨stmtHead_no_newline, hd⟩, newline_ne_slash⟩, hh⟩, stmtTail_no_newline⟩

/-- A match at the front of the rest of a line shows a reference on that line. -/
theorem hasRef_of_matchAt (t : Str) (nx : Option Str) (m : List Str)
    (h : reStatements.matchAt (t ++ lineBreak nx) = some m) :
    ∃ date hash b, t = stmtHead ++ date ++ [slash] ++ hash ++ stmtTail ++ b
      ∧ m = refOf date hash ∧ newline ∉ date ∧ newline ∉ hash ∧ slash ∉ hash := by
  obtain ⟨date, hash, rest, hs, hm, hd, hh, hsl⟩ := matchAt_reStatements_eq_some _ m h
  obtain ⟨b, hb⟩ := within_line t nx _ rest (refOf_no_newline date hash hd hh) hs
  exact ⟨date, hash, b, hb, hm, hd, hh, hsl⟩

/-- For `reStatements` the scan never meets an empty match. -/
theorem findAllAux_reStatements_cons (adj : Bool) (c : Char) (cs : Str) :
    reStatements.findAllAux 0 adj (c :: cs) =
      match reStatements.matchAt (c :: cs) with
      | some m => m :: reStatements.findAllAux ((m.headD []).length - 1) true cs
      | none => reStatements.findAllAux 0 false cs := by
  simp only [Regex.findAllAux]
  cases h : reStatements.matchAt (c :: cs) with
  | none => rfl
  | some m =>
    obtain ⟨date, hash, rest, _, hm, _⟩ := matchAt_reStatements_eq_some _ m h
    have hlen : ¬ (m.headD []).length = 0 := by
      rw [hm]
      simp [stmtHead]
    simp only [hlen, if_false]

theorem findAllAux_reStatements_nil (adj : Bool) : reStatements.findAllAux 0 adj [] = [] := by
  simp only [Regex.findAllAux]
  have : reStatements.matchAt [] = none := by decide
  rw [this]

/-- The characters covered by a match are passed over. -/
theorem findAllAux_skip (re : Regex) (a b : Str) (adj : Bool) (ha : a ≠ []) :
    re.findAllAux a.length adj (a ++ b) = re.findAllAux 0 true b := by
  induction a generalizing adj with
  | nil => exact absurd rfl ha
  | cons x xs ih =>
    cases xs with
    | nil => simp [Regex.findAllAux]
    | cons y ys =>
      simp only [List.length_cons, List.cons_append, Regex.findAllAux]
      exact ih true (List.cons_ne_nil _ _)

/-- The scan at the end of a line goes on after the line feed. -/
theorem findAllAux_lineBreak (adj : Bool) (nx : Option Str) :
    reStatements.findAllAux 0 adj (lineBreak nx) = afterBreak nx := by
  cases nx with
  | none => exact findAllAux_reStatements_nil adj
  | some rest =>
    simp only [lineBreak, afterBreak, findAllAux_reStatements_cons]
    have : reStatements.matchAt (newline :: rest) = none := by
      rw [matchAt_reStatements]
      rfl
    rw [this]

/-- A stretch of a line in which no match starts yields nothing. -/
theorem scan_without_match (t : Str) (nx : Option Str) (adj : Bool)
    (h : ∀ a b, t = a ++ b → b ≠ [] → reStatements.matchAt (b ++ lineBreak nx) = none) :
    reStatements.findAllAux 0 adj (t ++ lineBreak nx) = afterBreak nx := by
  induction t generalizing adj with
  | nil => exact findAllAux_lineBreak adj nx
  | cons c cs ih =>
    rw [List.cons_append, findAllAux_reStatements_cons]
    have h0 := h [] (c :: cs) rfl (List.cons_ne_nil _ _)
    rw [List.cons_append] at h0
    rw [h0]
    exact ih false (fun a b hab hb => h (c :: a) b (by rw [hab]; rfl) hb)

theorem findAllAux_reStatements_adj (adj : Bool) (s : Str) :
    reStatements.findAllAux 0 adj s = reStatements.findAllAux 0 false s := by
  cases s with
  | nil => rw [findAllAux_reStatements_nil, findAllAux_reStatements_nil]
  | cons c cs => rw [findAllAux_reStatements_cons, findAllAux_reStatements_cons]

/-- A stretch of text in which no match starts yields nothing. -/
theorem scan_stretch (t rest : Str) (adj : Bool)
    (h : ∀ a b, t = a ++ b → b ≠ [] → reStatements.matchAt (b ++ rest) = none) :
    reStatements.findAllAux 0 adj (t ++ rest) = reStatements.findAllAux 0 false rest := by
  induction t generalizing adj with
  | nil => exact findAllAux_reStatements_adj adj rest
  | cons c cs ih =>
    rw [List.cons_append, findAllAux_reStatements_cons]
    have h0 := h [] (c :: cs) rfl (List.cons_ne_nil _ _)
    rw [List.cons_append] at h0
    rw [h0]
    exact ih false (fun a b hab hb => h (c :: a) b (by rw [hab]; rfl) hb)

/-- A line without reference yields nothing. -/
theorem scan_plain (t : Str) (nx : Option Str) (adj : Bool) (hno : ¬ HasRef t) :
    reStatements.findAllAux 0 adj (t ++ lineBreak nx) = afterBreak nx := by
  apply scan_without_match
  intro a b hab _
  cases hm : reStatements.matchAt (b ++ lineBreak nx) with
  | none => rfl
  | some m =>
    exfalso
    obtain ⟨date, hash, b1, hb, _⟩ := hasRef_of_matchAt b nx m hm
    exact hno ⟨a, date, hash, b1, by rw [hab, hb]; simp only [List.append_assoc]⟩

/-- On a well-formed line with a reference, the match that starts at the
leading literal is that reference. -/
theorem matchAt_reference (date hash post : Str) (nx : Option Str)
    (hd : newline ∉ date) (hh : newline ∉ hash) (sd : slash ∉ date) (sh : slash ∉ hash)
    (hpost : ¬ Occurs stmtTail post) :
    reStatements.matchAt
        (stmtHead ++ date ++ [slash] ++ hash ++ stmtTail ++ post ++ lineBreak nx)
      = some (refOf date hash) := by
  cases hm : reStatements.matchAt
      (stmtHead ++ date ++ [slash] ++ hash ++ stmtTail ++ post ++ lineBreak nx) with
  | none =>
    exfalso
    rw [matchAt_reStatements] at hm
    have e1 : stripLit stmtHead
        (stmtHead ++ date ++ [slash] ++ hash ++ stmtTail ++ post ++ lineBreak nx)
        = some (date ++ (slash :: (hash ++ (stmtTail ++ (post ++ lineBreak nx))))) := by
      rw [stripLit_eq_some]
      simp
    rw [e1] at hm
    simp only [] at hm
    have k1 := starGreedy_eq_none dot _ _ hm date
      (slash :: (hash ++ (stmtTail ++ (post ++ lineBreak nx)))) rfl ((all_dot_iff date).2 hd)
    simp only [afterDate] at k1
    have e3 : stripLit [slash] (slash :: (hash ++ (stmtTail ++ (post ++ lineBreak nx))))
        = some (hash ++ (stmtTail ++ (post ++ lineBreak nx))) := by
      rw [stripLit_eq_some]
      rfl
    rw [e3] at k1
    simp only [] at k1
    have k2 := starGreedy_eq_none dot _ _ k1 hash (stmtTail ++ (post ++ lineBreak nx)) rfl
      ((all_dot_iff hash).2 hh)
    simp only [afterHash] at k2
    rw [stripLit_append] at k2
    exact Option.noConfusion k2
  | some m =>
    have hm1 : reStatements.matchAt
        ((stmtHead ++ date ++ [slash] ++ hash ++ stmtTail ++ post) ++ lineBreak nx) = some m := hm
    obtain ⟨date1, hash1, b1, hb, hshape, _, _, sh1⟩ := hasRef_of_matchAt _ nx m hm1
    have hb1 : date ++ slash :: (hash ++ slash :: ("downloadPdf".toList ++ post))
        = date1 ++ slash :: (hash1 ++ slash :: ("downloadPdf".toList ++ b1)) := by
      have := hb
      simp only [List.append_assoc, stmtTail_eq, List.cons_append, List.nil_append,
        List.append_cancel_left_eq] at this
      exact this
    have occ : ∀ a c : Str, post = a ++ slash :: ("downloadPdf".toList ++ c) → False := by
      intro a c hp
      exact hpost ⟨a, c, by rw [hp, stmtTail_eq]; simp⟩
    rcases first_sep_split slash date _ date1 _ sd hb1 with ⟨h1, h2⟩ | ⟨a2, h1, h2⟩
    · rcases first_sep_split slash hash _ hash1 _ sh h2.symm with ⟨g1, _⟩ | ⟨a3, g1, _⟩
      · rw [hshape, h1, g1]
      · exact absurd (by rw [g1]; simp) sh1
    · exfalso
      rcases first_sep_split slash hash _ a2 _ sh h2 with ⟨_, g2⟩ | ⟨a3, _, g2⟩
      · obtain ⟨a4, _, g4⟩ := append_split_of_not_mem slash _ post hash1 _ word_no_slash g2.symm
        exact occ a4 b1 g4
      · obtain ⟨a4, _, g4⟩ := append_split_of_not_mem slash _ post a3 _ word_no_slash g2
        exact occ (a4 ++ slash :: hash1) b1 (by rw [g4]; simp)

/-- A well-formed line with a reference yields that reference and nothing else. -/
theorem scan_ref (pre date hash post : Str) (nx : Option Str) (adj : Bool)
    (hwf : (Line.ref pre date hash post).WellFormed) :
    reStatements.findAllAux 0 adj ((Line.ref pre date hash post).text ++ lineBreak nx)
      = refOf date hash :: afterBreak nx := by
  obtain ⟨_, hd, hh, _, sd, sh, hpre, hpost⟩ := hwf
  have e0 : (Line.ref pre date hash post).text ++ lineBreak nx
      = pre ++ (stmtHead ++ date ++ [slash] ++ hash ++ stmtTail ++ post ++ lineBreak nx) := by
    simp only [Line.text, List.append_assoc]
  rw [e0, scan_stretch pre _ adj]
  · have hcons : stmtHead ++ date ++ [slash] ++ hash ++ stmtTail ++ post ++ lineBreak nx
        = slash :: (("service/rest/statements/".toList ++ date ++ [slash] ++ hash ++ stmtTail)
            ++ (post ++ lineBreak nx)) := by
      simp [stmtHead, slash]
    have hmatch := matchAt_reference date hash post nx hd hh sd sh hpost
    rw [hcons] at hmatch
    rw [hcons, findAllAux_reStatements_cons, hmatch]
    simp only []
    have hlen : ((refOf date hash).headD []).length - 1
        = ("service/rest/statements/".toList ++ date ++ [slash] ++ hash ++ stmtTail).length := by
      simp [refOf, stmtHead]
    rw [hlen, findAllAux_skip _ _ _ _ (by simp)]
    congr 1
    apply scan_without_match
    intro a b hab _
    cases hm : reStatements.matchAt (b ++ lineBreak nx) with
    | none => rfl
    | some m =>
      exfalso
      obtain ⟨date1, hash1, b1, hb, _⟩ := hasRef_of_matchAt b nx m hm
      exact hpost ⟨a ++ stmtHead ++ date1 ++ [slash] ++ hash1, b1, by
        rw [hab, hb]
        simp only [List.append_assoc]⟩
  · intro a b hab hb
    cases hm : reStatements.matchAt
        (b ++ (stmtHead ++ date ++ [slash] ++ hash ++ stmtTail ++ post ++ lineBreak nx)) with
    | none => rfl
    | some m =>
      exfalso
      obtain ⟨date1, hash1, rest, hs, _⟩ := matchAt_reStatements_eq_some _ m hm
      have hs1 : (b ++ stmtHead) ++ (date ++ [slash] ++ hash ++ stmtTail ++ post ++ lineBreak nx)
          = stmtHead ++ (date1 ++ [slash] ++ hash1 ++ stmtTail ++ rest) := by
        have := hs
        simp only [List.append_assoc] at this ⊢
        exact this
      rcases List.append_eq_append_iff.1 hs1 with ⟨a1, h1, _⟩ | ⟨c1, h1, _⟩
      · have := congrArg List.length h1
        simp only [List.length_append] at this
        have hbl : 0 < b.length := List.length_pos.2 hb
        omega
      · have hc := hpre a c1 (by rw [hab, List.append_assoc, h1, List.append_assoc])
        subst hc
        have := congrArg List.length h1
        simp only [List.length_append, List.length_nil] at this
        have hbl : 0 < b.length := List.length_pos.2 hb
        omega

theorem scan_line (l : Line) (nx : Option Str) (adj : Bool) (hwf : l.WellFormed) :
    reStatements.findAllAux 0 adj (l.text ++ lineBreak nx) = l.refs ++ afterBreak nx := by
  cases l with
  | plain t => exact scan_plain t nx adj hwf.2
  | ref pre date hash post => exact scan_ref pre date hash post nx adj hwf

/-- C3 (amended): for every listing whose lines each hold at most one reference
(a line with a reference has no slash in its date and hash, no earlier
occurrence of `/service/rest/statements/` and no later occurrence of
`/downloadPdf`; a line without reference holds no substring of that form),
`reStatements.FindAllSubmatch` returns, in the order of the lines, exactly one
entry `[path, date, hash]` per line with a reference: none is missed, none is
added, and a pair that stands on two lines is reported twice. -/
theorem listing_one_reference_per_line (ls : List Line) (hwf : ∀ l ∈ ls, l.WellFormed) :
    reStatements.FindAllSubmatch (bodyOf ls) = refsOf ls := by
  unfold Regex.FindAllSubmatch
  induction ls with
  | nil => exact findAllAux_reStatements_nil false
  | cons l rest ih =>
    have hl := hwf l (List.mem_cons_self _ _)
    have hrest := ih (fun x hx => hwf x (List.mem_cons_of_mem _ hx))
    cases rest with
    | nil =>
      have := scan_line l none false hl
      simp only [lineBreak, List.append_nil, afterBreak] at this
      simp only [bodyOf, refsOf, List.append_nil]
      exact this
    | cons l2 ls2 =>
      have := scan_line l (some (bodyOf (l2 :: ls2))) false hl
      simp only [lineBreak, afterBreak] at this
      rw [hrest] at this
      simp only [bodyOf]
      rw [this]
      rfl

theorem contains_of_occurs (needle t : Str) (h : Occurs needle t) : Contains t needle = true := by
  obtain ⟨a, b, rfl⟩ := h
  induction a with
  | nil =>
    rw [List.nil_append]
    have hs := stripLit_append needle b
    cases hn : needle ++ b with
    | nil =>
      have h1 : needle = [] := (List.append_eq_nil.1 hn).1
      simp [Contains, h1]
    | cons c cs =>
      rw [hn] at hs
      simp [Contains, hs]
  | cons x xs ih =>
    simp only [List.cons_append, Contains, Bool.or_eq_true]
    right
    simpa using ih

theorem not_hasRef_of_contains (t : Str) (h : Contains t stmtTail = false) : ¬ HasRef t := by
  rintro ⟨a, x, y, b, ht⟩
  have := contains_of_occurs stmtTail t ⟨a ++ stmtHead ++ x ++ [slash] ++ y, b, ht⟩
  rw [h] at this
  exact Bool.noConfusion this

theorem not_occurs_of_contains (needle t : Str) (h : Contains t needle = false) :
    ¬ Occurs needle t := by
  intro ho
  have := contains_of_occurs needle t ho
  rw [h] at this
  exact Bool.noConfusion this

theorem no_earlier_head_of_contains (pre : Str)
    (h : Contains (pre ++ "/service/rest/statements".toList) stmtHead = false) :
    ∀ a b : Str, pre ++ stmtHead = a ++ stmtHead ++ b → b = [] := by
  intro a b hab
  by_contra hb
  obtain ⟨b1, x, rfl⟩ : ∃ b1 x, b = b1 ++ [x] :=
    ⟨b.dropLast, b.getLast hb, (List.dropLast_append_getLast hb).symm⟩
  have hH : stmtHead = "/service/rest/statements".toList ++ [slash] := by decide
  have e : (pre ++ "/service/rest/statements".toList) ++ [slash]
      = (a ++ stmtHead ++ b1) ++ [x] := by
    rw [List.append_assoc, ← hH, hab]
    simp only [List.append_assoc]
  have e1 := (List.append_inj' e rfl).1
  exact not_occurs_of_contains stmtHead _ h ⟨a, b1, e1⟩

/-- C3, worked instance: a listing of three lines, the first and the last with
the same reference, yields that reference twice. -/
theorem listing_one_reference_per_line_witness :
    reStatements.FindAllSubmatch (bodyOf linesExample) = refsOf linesExample
    ∧ refsOf linesExample
      = [refOf "20230101".toList "abc".toList, refOf "20230101".toList "abc".toList] :=
  ⟨listing_one_reference_per_line linesExample (by
    have href : (Line.ref "<a href='".toList "20230101".toList "abc".toList
        "'>pdf</a>".toList).WellFormed :=
      ⟨by decide, by decide, by decide, by decide, by decide, by decide,
        no_earlier_head_of_contains _ (by decide), not_occurs_of_contains _ _ (by decide)⟩
    intro l hl
    unfold linesExample at hl
    rcases List.mem_cons.1 hl with rfl | hl
    · exact href
    · rcases List.mem_cons.1 hl with rfl | hl
      · exact ⟨by decide, not_hasRef_of_contains _ (by decide)⟩
      · rw [List.mem_singleton.1 hl]
        exact href), by decide⟩

/-- C3, counterexample: a reference that stands on two lines is reported twice
(the list is not made of distinct pairs), and of two references that share a
line only one entry is reported, whose date token runs from the first date to
the second: the pair of the first reference is missed. -/
theorem listing_not_distinct_and_shared_line_counterexample :
    reStatements.FindAllSubmatch pageRepeated
      = [refOf "20230101".toList "abc".toList, refOf "20230101".toList "abc".toList]
    ∧ Contains pageOneLine (stmtHead ++ "20230101/abc".toList ++ stmtTail) = true
    ∧ Contains pageOneLine (stmtHead ++ "20230201/def".toList ++ stmtTail) = true
    ∧ reStatements.FindAllSubmatch pageOneLine
      = [refOf ("20230101/abc/downloadPdf'>pdf</a> <a href='/service/rest/statements/20230201".toList)
          "def".toList]
    ∧ refOf "20230101".toList "abc".toList ∉ reStatements.FindAllSubmatch pageOneLine := by
  decide

/-! ## The age filter -/

theorem wrap64_of_range (x : Int) (h1 : -9223372036854775808 ≤ x) (h2 : x ≤ 9223372036854775807) :
    wrap64 x = x := by
  unfold wrap64
  omega

theorem threshold_of_range (T : Int) (hlo : -106751 ≤ T) (hhi : T ≤ 106751) :
    mul64 (mul64 (wrap64 T) 24) Hour = T * 86400000000000 := by
  unfold mul64 Hour
  rw [wrap64_of_range T (by omega) (by omega), wrap64_of_range (T * 24) (by omega) (by omega),
    wrap64_of_range _ (by omega) (by omega)]
  omega

theorem tooOld_one_day_over (T now : Int) (hT : T ≠ 0) (hlo : -106751 ≤ T) (hhi : T ≤ 106751) :
    tooOld T (Sub now (now - (T + 1) * (24 * Hour))) = true := by
  unfold tooOld
  rw [threshold_of_range T hlo hhi]
  unfold Sub maxInt64 minInt64 Hour
  simp only [bne_iff_ne, ne_eq, Bool.and_eq_true, decide_eq_true_eq]
  refine ⟨hT, ?_⟩
  split_ifs <;> omega

theorem tooOld_one_day_under (T now : Int) (hlo : -106751 ≤ T) (hhi : T ≤ 106751) :
    tooOld T (Sub now (now - (T - 1) * (24 * Hour))) = false := by
  unfold tooOld
  rw [threshold_of_range T hlo hhi]
  unfold Sub maxInt64 minInt64 Hour
  simp only [Bool.and_eq_false_imp, bne_iff_ne, ne_eq, decide_eq_false_iff_not, not_lt]
  intro _
  split_ifs <;> omega

theorem tooOld_zero (age : Int) : tooOld 0 age = false := by
  simp [tooOld]

theorem tooOld_future (T now date : Int) (hlo : 0 ≤ T) (hhi : T ≤ 106751) (h : now < date) :
    tooOld T (Sub now date) = false := by
  unfold tooOld
  rw [threshold_of_range T (by omega) hhi]
  unfold Sub maxInt64 minInt64
  simp only [Bool.and_eq_false_imp, bne_iff_ne, ne_eq, decide_eq_false_iff_not, not_lt]
  intro _
  split_ifs <;> omega

theorem loopStep_of_parse (w : World) (f : Flags) (st : LoopState) (stmts : List Str) (d : Civil)
    (hparse : parseLayout (stmts.getD 1 []) = some d) :
    loopStep w f st stmts =
      if tooOld f.days (Sub (w.now st.run.clock) (w.localDate d)) then
        .ok { st with run := { st.run with clock := st.run.clock + 1 } }
      else download w { st with run := { st.run with clock := st.run.clock + 1 } } stmts := by
  simp only [loopStep, hparse]

/-- Within the range of a `Duration` the test of line 174 is the comparison of
the exact integers: the saturation of `Time.Sub` and the int64 product change
nothing. -/
theorem tooOld_iff (T now date : Int) (hlo : -106751 ≤ T) (hhi : T ≤ 106751) :
    tooOld T (Sub now date) = true ↔ T ≠ 0 ∧ T * (24 * Hour) < now - date := by
  unfold tooOld
  rw [threshold_of_range T hlo hhi]
  unfold Sub maxInt64 minInt64 Hour
  simp only [bne_iff_ne, ne_eq, Bool.and_eq_true, decide_eq_true_eq]
  constructor
  · rintro ⟨h0, h⟩
    refine ⟨h0, ?_⟩
    split_ifs at h <;> omega
  · rintro ⟨h0, h⟩
    refine ⟨h0, ?_⟩
    split_ifs <;> omega

/-- C4 (amended): for a threshold `days` between -106751 and 106751 (so that
`days * 24h` fits an int64 of nanoseconds) and a reference whose date parses,
the turn of the loop skips the reference (no request, no attachment) exactly
when `days` is not zero and the exact difference `now - date` is greater than
`days * 24h`, and goes on to the download otherwise. In particular: when `days`
is not zero and the date lies `days + 1` days before the clock reading, the
reference is skipped; when it lies `days - 1` days before, it is downloaded;
and with `days = 0` it is downloaded whatever its age. -/
theorem age_filter_within_duration_range (w : World) (f : Flags) (st : LoopState)
    (stmts : List Str) (d : Civil) (hparse : parseLayout (stmts.getD 1 []) = some d)
    (hlo : -106751 ≤ f.days) (hhi : f.days ≤ 106751) :
    (loopStep w f st stmts
        = if f.days ≠ 0 ∧ f.days * (24 * Hour) < w.now st.run.clock - w.localDate d then
            .ok { st with run := { st.run with clock := st.run.clock + 1 } }
          else download w { st with run := { st.run with clock := st.run.clock + 1 } } stmts)
    ∧ (f.days ≠ 0 → w.localDate d = w.now st.run.clock - (f.days + 1) * (24 * Hour) →
        loopStep w f st stmts
          = .ok { st with run := { st.run with clock := st.run.clock + 1 } })
    ∧ (f.days ≠ 0 → w.localDate d = w.now st.run.clock - (f.days - 1) * (24 * Hour) →
        loopStep w f st stmts
          = download w { st with run := { st.run with clock := st.run.clock + 1 } } stmts)
    ∧ (f.days = 0 →
        loopStep w f st stmts
          = download w { st with run := { st.run with clock := st.run.clock + 1 } } stmts) := by
  refine ⟨?_, ?_, ?_, ?_⟩
  · rw [loopStep_of_parse w f st stmts d hparse]
    by_cases hc : f.days ≠ 0 ∧ f.days * (24 * Hour) < w.now st.run.clock - w.localDate d
    · rw [if_pos hc, if_pos ((tooOld_iff _ _ _ hlo hhi).2 hc)]
    · rw [if_neg hc, if_neg (fun h => hc ((tooOld_iff _ _ _ hlo hhi).1 h))]
  · intro h0 hd
    rw [loopStep_of_parse w f st stmts d hparse, hd, tooOld_one_day_over _ _ h0 hlo hhi]
    rfl
  · intro _ hd
    rw [loopStep_of_parse w f st stmts d hparse, hd, tooOld_one_day_under _ _ hlo hhi]
    rfl
  · intro h0
    rw [loopStep_of_parse w f st stmts d hparse, h0, tooOld_zero]
    rfl

/-- C4, worked instance: on 2023-03-01 with threshold 30, the statement of
2023-01-30, exactly 30 days old, is downloaded (the comparison is strict), the
statement of 2023-01-29 (31 days old) is skipped and the one of 2023-01-31 (29
days old) is downloaded; with threshold 0 the statement of 2023-01-29 is
downloaded. -/
theorem age_filter_within_duration_range_witness :
    daysFromCivil ⟨2023, 3, 1⟩ = 19417
    ∧ marchWorld.now freshLoop.run.clock - marchWorld.localDate ⟨2023, 1, 30⟩ = 30 * (24 * Hour)
    ∧ loopStep marchWorld (flagsOf 30 []) freshLoop (refOf "20230130".toList "abc".toList)
      = download marchWorld { freshLoop with run := { freshLoop.run with clock := 1 } }
          (refOf "20230130".toList "abc".toList)
    ∧ loopStep marchWorld (flagsOf 30 []) freshLoop (refOf "20230129".toList "abc".toList)
      = .ok { freshLoop with run := { freshLoop.run with clock := 1 } }
    ∧ loopStep marchWorld (flagsOf 30 []) freshLoop (refOf "20230131".toList "abc".toList)
      = download marchWorld { freshLoop with run := { freshLoop.run with clock := 1 } }
          (refOf "20230131".toList "abc".toList)
    ∧ loopStep marchWorld (flagsOf 0 []) freshLoop (refOf "20230129".toList "abc".toList)
      = download marchWorld { freshLoop with run := { freshLoop.run with clock := 1 } }
          (refOf "20230129".toList "abc".toList) :=
  ⟨by decide, by decide,
   ((age_filter_within_duration_range marchWorld (flagsOf 30 []) freshLoop
      (refOf "20230130".toList "abc".toList) ⟨2023, 1, 30⟩
      (by decide) (by decide) (by decide)).1).trans (if_neg (by decide)),
   (age_filter_within_duration_range marchWorld (flagsOf 30 []) freshLoop
      (refOf "20230129".toList "abc".toList) ⟨2023, 1, 29⟩
      (by decide) (by decide) (by decide)).2.1 (by decide) (by decide),
   (age_filter_within_duration_range marchWorld (flagsOf 30 []) freshLoop
      (refOf "20230131".toList "abc".toList) ⟨2023, 1, 31⟩
      (by decide) (by decide) (by decide)).2.2.1 (by decide) (by decide),
   (age_filter_within_duration_range marchWorld (flagsOf 0 []) freshLoop
      (refOf "20230129".toList "abc".toList) ⟨2023, 1, 29⟩
      (by decide) (by decide) (by decide)).2.2.2 (by decide)⟩

/-- C4, counterexample: with `-days 106752` the product `days * 24h` wraps
around in int64 to a negative duration, and on 2023-03-01 the statement of
1730-11-21, which is 106751 days old (one day less than the threshold), is
skipped as too old instead of being downloaded. -/
theorem age_filter_overflow_counterexample :
    (flagsOf 106752 []).days ≠ 0
    ∧ parseLayout ((refOf "17301121".toList "abc".toList).getD 1 []) = some ⟨1730, 11, 21⟩
    ∧ marchWorld.localDate ⟨1730, 11, 21⟩
        = marchWorld.now freshLoop.run.clock - ((flagsOf 106752 []).days - 1) * (24 * Hour)
    ∧ mul64 (mul64 (wrap64 106752) 24) Hour = -9223371273709551616
    ∧ loopStep marchWorld (flagsOf 106752 []) freshLoop (refOf "17301121".toList "abc".toList)
      = .ok { freshLoop with run := { freshLoop.run with clock := 1 } }
    ∧ loopStep marchWorld (flagsOf 106752 []) freshLoop (refOf "17301121".toList "abc".toList)
      ≠ download marchWorld { freshLoop with run := { freshLoop.run with clock := 1 } }
          (refOf "17301121".toList "abc".toList) := by
  decide

/-- C10 (amended): for a threshold `days` between 0 and 106751 and a reference
whose parsed date lies after the clock reading, the turn of the loop goes on to
the download: the reference is not skipped as too old. -/
theorem future_dated_accepted (w : World) (f : Flags) (st : LoopState)
    (stmts : List Str) (d : Civil) (hparse : parseLayout (stmts.getD 1 []) = some d)
    (hlo : 0 ≤ f.days) (hhi : f.days ≤ 106751) (hfut : w.now st.run.clock < w.localDate d) :
    loopStep w f st stmts
      = download w { st with run := { st.run with clock := st.run.clock + 1 } } stmts := by
  rw [loopStep_of_parse w f st stmts d hparse, tooOld_future _ _ _ hlo hhi hfut]
  rfl

/-- C10, worked instance: on 2023-03-01 with threshold 30, the statement dated
2023-03-02 is downloaded. -/
theorem future_dated_accepted_witness :
    loopStep marchWorld (flagsOf 30 []) freshLoop (refOf "20230302".toList "abc".toList)
      = download marchWorld { freshLoop with run := { freshLoop.run with clock := 1 } }
          (refOf "20230302".toList "abc".toList) :=
  future_dated_accepted marchWorld (flagsOf 30 []) freshLoop
    (refOf "20230302".toList "abc".toList) ⟨2023, 3, 2⟩ (by decide) (by decide)
    (by decide) (by decide)

/-- C10, counterexample: with `-days -5` on 2023-03-01 the statement dated
2023-03-02 has age -1 day, which exceeds -5 days: it is skipped as too old
instead of being downloaded. -/
theorem future_dated_negative_threshold_counterexample :
    parseLayout ((refOf "20230302".toList "abc".toList).getD 1 []) = some ⟨2023, 3, 2⟩
    ∧ marchWorld.now freshLoop.run.clock < marchWorld.localDate ⟨2023, 3, 2⟩
    ∧ loopStep marchWorld (flagsOf (-5) []) freshLoop (refOf "20230302".toList "abc".toList)
      = .ok { freshLoop with run := { freshLoop.run with clock := 1 } }
    ∧ loopStep marchWorld (flagsOf (-5) []) freshLoop (refOf "20230302".toList "abc".toList)
      ≠ download marchWorld { freshLoop with run := { freshLoop.run with clock := 1 } }
          (refOf "20230302".toList "abc".toList) := by
  decide

/-! ## Unparseable dates -/

theorem loopStep_of_unparseable (w : World) (f : Flags) (st : LoopState) (stmts : List Str)
    (h : parseLayout (stmts.getD 1 []) = none) : loopStep w f st stmts = .ok st := by
  simp only [loopStep, h]

/-- C5: a reference whose date token does not parse under the layout `20060102`
is skipped without a fatal error (the turn of the loop returns the state it
got: no request, no attachment, no call of the clock), and the loop over a list
that holds it ends exactly as the loop over the list without it: same
requests, same attachments in the same order, same count, same fatal error if
there is one. -/
theorem unparseable_reference_skipped (w : World) (f : Flags) (before after : List (List Str))
    (bad : List Str) (st : LoopState) (hbad : parseLayout (bad.getD 1 []) = none) :
    (∀ st1 : LoopState, loopStep w f st1 bad = .ok st1)
    ∧ loop w f (before ++ bad :: after) st = loop w f (before ++ after) st := by
  refine ⟨fun st1 => loopStep_of_unparseable w f st1 bad hbad, ?_⟩
  induction before generalizing st with
  | nil => simp only [List.nil_append, loop, loopStep_of_unparseable w f st bad hbad]
  | cons r rest ih =>
    simp only [List.cons_append, loop]
    cases loopStep w f st r with
    | error e => rfl
    | ok st1 => exact ih st1

/-- C5, worked instance: a reference with the date token `2023-01` between two
good ones. -/
theorem unparseable_reference_skipped_witness :
    parseLayout ((refOf "2023-01".toList "x".toList).getD 1 []) = none
    ∧ (∀ st1 : LoopState, loopStep (constWorld 0 0) (flagsOf 0 []) st1
        (refOf "2023-01".toList "x".toList) = .ok st1)
    ∧ loop (constWorld 0 0) (flagsOf 0 [])
        ([refOf "20230101".toList "abc".toList] ++ refOf "2023-01".toList "x".toList
          :: [refOf "20230201".toList "def".toList]) freshLoop
      = loop (constWorld 0 0) (flagsOf 0 [])
        ([refOf "20230101".toList "abc".toList] ++ [refOf "20230201".toList "def".toList])
        freshLoop :=
  ⟨by decide,
    unparseable_reference_skipped (constWorld 0 0) (flagsOf 0 [])
      [refOf "20230101".toList "abc".toList] [refOf "20230201".toList "def".toList]
      (refOf "2023-01".toList "x".toList) freshLoop (by decide)⟩

/-! ## The statement loop and the message -/

theorem isDigit_ne_slash (c : Char) (h : isDigit c = true) : c ≠ slash := by
  rintro rfl
  exact absurd h (by decide)

theorem Base_of_no_slash (s : Str) (hne : s ≠ []) (hs : ∀ c ∈ s, c ≠ slash) : Base s = s := by
  have hlen : ¬ s.length = 0 := by
    intro h
    exact hne (List.length_eq_zero.1 h)
  have h1 : s.reverse.dropWhile (fun c => decide (c = slash)) = s.reverse := by
    cases hr : s.reverse with
    | nil => rfl
    | cons x xs =>
      have hx : x ∈ s := by
        rw [← List.mem_reverse, hr]
        exact List.mem_cons_self _ _
      have : decide (x = slash) = false := by
        simpa using hs x hx
      rw [List.dropWhile_cons_of_neg (by simp [this])]
  have h2 : s.reverse.takeWhile (fun c => c != slash) = s.reverse := by
    rw [List.takeWhile_eq_self_iff]
    intro x hx
    have := hs x (List.mem_reverse.1 hx)
    simpa using this
  simp only [Base, hlen, if_false, h1, List.reverse_reverse, h2]

theorem attachment_name_of_parse (v : Str) (d : Civil) (h : parseLayout v = some d) :
    Base ("statement-".toList ++ v) = "statement-".toList ++ v := by
  obtain ⟨_, hd⟩ := parseLayout_eq_some v d h
  have hlit : ∀ c ∈ "statement-".toList, c ≠ slash := by decide
  apply Base_of_no_slash
  · intro h0
    have := congrArg List.length h0
    simp at this
  · intro c hc
    rcases List.mem_append.1 hc with hc | hc
    · exact hlit c hc
    · exact isDigit_ne_slash c (hd c hc)

/-- What a successful download adds: one attachment and one request. -/
theorem download_ok (w : World) (st st1 : LoopState) (stmts : List Str)
    (h : download w st stmts = .ok st1) :
    ∃ resp, answer w st.run.exchanges (.get (urlSITE ++ stmts.getD 0 [])) = .ok resp
      ∧ st1.m.attachments = st.m.attachments
        ++ [⟨Base ("statement-".toList ++ stmts.getD 1 []), pdfHeader, resp⟩]
      ∧ st1.m.header = st.m.header ∧ st1.m.body = st.m.body
      ∧ st1.hasFile = st.hasFile + 1
      ∧ st1.run.clock = st.run.clock
      ∧ st1.run.exchanges = st.run.exchanges + 1
      ∧ st1.run.trace = st.run.trace ++ [Event.request (.get (urlSITE ++ stmts.getD 0 []))] := by
  unfold download at h
  rcases send_cases st.run w (.get (urlSITE ++ stmts.getD 0 [])) with
    ⟨e, hs⟩ | ⟨e, hs⟩ | ⟨resp, ha, hs⟩
  · rw [hs] at h
    exact Except.noConfusion h
  · rw [hs] at h
    exact Except.noConfusion h
  · rw [hs] at h
    have h1 := Except.ok.inj h
    subst h1
    exact ⟨resp, ha, rfl, rfl, rfl, rfl, rfl, rfl, rfl⟩

theorem download_of_answer (w : World) (st : LoopState) (stmts : List Str) (resp : Response)
    (h : answer w st.run.exchanges (.get (urlSITE ++ stmts.getD 0 [])) = .ok resp) :
    download w st stmts
      = .ok ⟨⟨st.run.trace ++ [Event.request (.get (urlSITE ++ stmts.getD 0 []))],
          st.run.exchanges + 1, st.run.clock⟩,
        st.m.Attach ("statement-".toList ++ stmts.getD 1 []) pdfHeader resp,
        st.hasFile + 1⟩ := by
  unfold download
  rw [send_of_answer st.run w _ resp h]

theorem download_error (w : World) (st : LoopState) (stmts : List Str) (r : Run) (d : Diag)
    (h : download w st stmts = .error (r, d)) :
    ∃ reqs : List Request, r.trace = st.run.trace ++ reqs.map Event.request := by
  unfold download at h
  rcases send_cases st.run w (.get (urlSITE ++ stmts.getD 0 [])) with
    ⟨e, hs⟩ | ⟨e, hs⟩ | ⟨resp, _, hs⟩
  · rw [hs] at h
    have h1 := Except.error.inj h
    exact ⟨[], by rw [← (Prod.mk.inj h1).1]; simp⟩
  · rw [hs] at h
    have h1 := Except.error.inj h
    exact ⟨[.get (urlSITE ++ stmts.getD 0 [])], by rw [← (Prod.mk.inj h1).1]; simp⟩
  · rw [hs] at h
    exact Except.noConfusion h

/-- What a finished loop leaves: one attachment per surviving reference, in
listing order, and nothing but requests added to the trace. -/
theorem loop_ok (w : World) (f : Flags) (rs : List (List Str)) (st st1 : LoopState)
    (h : loop w f rs st = .ok st1) :
    st1.m.attachments.map (fun a => (a.Name, a.Header))
        = st.m.attachments.map (fun a => (a.Name, a.Header))
          ++ (survivors w f st.run.clock rs).map
              (fun s => ("statement-".toList ++ s.getD 1 [], pdfHeader))
      ∧ st1.hasFile = st.hasFile + (survivors w f st.run.clock rs).length
      ∧ st1.m.header = st.m.header ∧ st1.m.body = st.m.body
      ∧ ∃ reqs : List Request, st1.run.trace = st.run.trace ++ reqs.map Event.request := by
  induction rs generalizing st with
  | nil =>
    simp only [loop, Except.ok.injEq] at h
    subst h
    exact ⟨by simp [survivors], by simp [survivors], rfl, rfl, [], by simp⟩
  | cons s rest ih =>
    simp only [loop] at h
    cases hstep : loopStep w f st s with
    | error e => simp [hstep] at h
    | ok st2 =>
      simp only [hstep] at h
      obtain ⟨i1, i2, i3, i4, reqs, i5⟩ := ih st2 h
      cases hp : parseLayout (s.getD 1 []) with
      | none =>
        rw [loopStep_of_unparseable w f st s hp] at hstep
        simp only [Except.ok.injEq] at hstep
        subst hstep
        simp only [survivors, hp]
        exact ⟨i1, i2, i3, i4, reqs, i5⟩
      | some d =>
        rw [loopStep_of_parse w f st s d hp] at hstep
        by_cases hold : tooOld f.days (Sub (w.now st.run.clock) (w.localDate d)) = true
        · simp only [hold, if_true, Except.ok.injEq] at hstep
          subst hstep
          simp only [survivors, hp, hold, if_true]
          exact ⟨i1, i2, i3, i4, reqs, i5⟩
        · simp only [hold, Bool.false_eq_true, if_false] at hstep
          obtain ⟨resp, _, a1, a2, a3, a4, a5, _, a6⟩ := download_ok w _ st2 s hstep
          simp only at a1 a2 a3 a4 a5 a6
          simp only [survivors, hp, hold, Bool.false_eq_true, if_false]
          rw [a5] at i1 i2
          refine ⟨?_, ?_, by rw [i3, a2], by rw [i4, a3], ?_⟩
          · rw [i1, a1, attachment_name_of_parse _ d hp]
            simp
          · rw [i2, a4]
            simp only [List.length_cons]
            omega
          · exact ⟨.get (urlSITE ++ s.getD 0 []) :: reqs, by rw [i5, a6]; simp⟩

theorem loop_trace (w : World) (f : Flags) (rs : List (List Str)) (st : LoopState) :
    ∃ reqs : List Request,
      (loopRunOf (loop w f rs st)).trace = st.run.trace ++ reqs.map Event.request := by
  induction rs generalizing st with
  | nil => exact ⟨[], by simp [loop, loopRunOf]⟩
  | cons s rest ih =>
    simp only [loop]
    cases hstep : loopStep w f st s with
    | error e =>
      obtain ⟨r, d⟩ := e
      simp only [loopRunOf]
      cases hp : parseLayout (s.getD 1 []) with
      | none =>
        rw [loopStep_of_unparseable w f st s hp] at hstep
        exact Except.noConfusion hstep
      | some d1 =>
        rw [loopStep_of_parse w f st s d1 hp] at hstep
        split_ifs at hstep
        have hd := download_error w _ s r d hstep
        exact hd
    | ok st2 =>
      simp only []
      obtain ⟨reqs, hreqs⟩ := ih st2
      have : ∃ reqs0 : List Request, st2.run.trace = st.run.trace ++ reqs0.map Event.request := by
        cases hp : parseLayout (s.getD 1 []) with
        | none =>
          rw [loopStep_of_unparseable w f st s hp] at hstep
          simp only [Except.ok.injEq] at hstep
          subst hstep
          exact ⟨[], by simp⟩
        | some d1 =>
          rw [loopStep_of_parse w f st s d1 hp] at hstep
          split_ifs at hstep
          · simp only [Except.ok.injEq] at hstep
            subst hstep
            exact ⟨[], by simp⟩
          · obtain ⟨_, _, _, _, _, _, _, _, a6⟩ := download_ok w _ st2 s hstep
            exact ⟨[.get (urlSITE ++ s.getD 0 [])], by rw [a6]; simp⟩
      obtain ⟨reqs0, hreqs0⟩ := this
      exact ⟨reqs0 ++ reqs, by rw [hreqs, hreqs0]; simp⟩

/-! ## The run as a whole -/

theorem isSend_request (r : Request) : isSend (Event.request r) = false := rfl

theorem isSend_fatal (d : Diag) : isSend (Event.fatal d) = false := rfl

theorem no_send_in_requests (reqs : List Request) (e : Event)
    (he : e ∈ reqs.map Event.request) (hs : isSend e = true) : False := by
  obtain ⟨rq, _, rfl⟩ := List.mem_map.1 he
  simp [isSend] at hs

theorem send_of_append_requests (tr : List Event) (reqs : List Request) (e : Event)
    (he : e ∈ tr ++ reqs.map Event.request) (hs : isSend e = true) : e ∈ tr := by
  rcases List.mem_append.1 he with h | h
  · exact h
  · exact (no_send_in_requests reqs e h hs).elim

theorem send_of_fatal (st : Run) (d : Diag) (e : Event) (he : e ∈ (st.fatal d).trace)
    (hs : isSend e = true) : e ∈ st.trace := by
  simp only [Run.fatal, List.mem_append, List.mem_singleton] at he
  rcases he with he | rfl
  · exact he
  · simp [isSend] at hs

/-- The deferred logout keeps the trace and adds requests and fatal events only. -/
theorem logout_trace (w : World) (url : Str) (st : Run) :
    ∃ evs : List Event, (logout w url st).trace = st.trace ++ evs
      ∧ ∀ e ∈ evs, isSend e = false := by
  unfold logout
  rcases send_cases st w (.post (urlSITE ++ url) contentTypeJSON none) with
    ⟨x, hs⟩ | ⟨x, hs⟩ | ⟨resp, _, hs⟩
  · rw [hs]
    refine ⟨[Event.fatal (.text x)], rfl, ?_⟩
    intro e he
    rw [List.mem_singleton.1 he]
    rfl
  · rw [hs]
    refine ⟨[Event.request (.post (urlSITE ++ url) contentTypeJSON none), Event.fatal (.text x)],
      by simp [Run.fatal], ?_⟩
    intro e he
    simp only [List.mem_cons, List.mem_singleton, List.not_mem_nil, or_false] at he
    rcases he with rfl | rfl <;> rfl
  · rw [hs]
    simp only []
    cases hb : resp.body with
    | err x =>
      refine ⟨[Event.request (.post (urlSITE ++ url) contentTypeJSON none),
        Event.fatal (.text x)], by simp [Run.fatal], ?_⟩
      intro e he
      simp only [List.mem_cons, List.mem_singleton, List.not_mem_nil, or_false] at he
      rcases he with rfl | rfl <;> rfl
    | ok b =>
      refine ⟨[Event.request (.post (urlSITE ++ url) contentTypeJSON none)], rfl, ?_⟩
      intro e he
      rw [List.mem_singleton.1 he]
      rfl

theorem send_of_logout (w : World) (url : Str) (st : Run) (e : Event)
    (he : e ∈ (logout w url st).trace) (hs : isSend e = true) : e ∈ st.trace := by
  obtain ⟨evs, htr, hev⟩ := logout_trace w url st
  rw [htr] at he
  rcases List.mem_append.1 he with h | h
  · exact h
  · rw [hev e h] at hs
    exact Bool.noConfusion hs

theorem complete_attachments (m : Message) (smtpTo : Str) :
    (complete m smtpTo).attachments = m.attachments := rfl

theorem send_of_mail (w : World) (f : Flags) (st : LoopState) (e : Event)
    (he : e ∈ (runOf (mail w f st)).trace) :
    e ∈ st.run.trace ∨ (st.hasFile ≠ 0 ∧ ∃ host port,
      e = Event.dialAndSend host port f.smtpUser f.smtpPass (complete st.m f.smtpTo)) := by
  unfold mail at he
  by_cases h0 : st.hasFile = 0
  · left
    simpa [h0, runOf] using he
  · have hb : (st.hasFile != 0) = true := by simpa using h0
    rw [if_pos hb] at he
    simp only at he
    cases ht : dialTarget f.smtp with
    | error d =>
      rw [ht] at he
      exact Or.inl he
    | ok hp =>
      obtain ⟨host, port⟩ := hp
      rw [ht] at he
      simp only at he
      have key : e ∈ st.run.trace
          ++ [Event.dialAndSend host port f.smtpUser f.smtpPass (complete st.m f.smtpTo)] := by
        cases hd : w.dialAndSend host port f.smtpUser f.smtpPass (complete st.m f.smtpTo) with
        | none =>
          rw [hd] at he
          exact he
        | some x =>
          rw [hd] at he
          exact he
      rcases List.mem_append.1 key with h1 | h1
      · exact Or.inl h1
      · exact Or.inr ⟨h0, host, port, List.mem_singleton.1 h1⟩

/-- The message reaches the dialer when a file was attached and the target
resolves. -/
theorem mail_sends (w : World) (f : Flags) (st : LoopState) (host : Str) (port : Int)
    (h0 : st.hasFile ≠ 0) (ht : dialTarget f.smtp = .ok (host, port)) :
    Event.dialAndSend host port f.smtpUser f.smtpPass (complete st.m f.smtpTo)
      ∈ (runOf (mail w f st)).trace := by
  unfold mail
  have hb : (st.hasFile != 0) = true := by simpa using h0
  rw [if_pos hb]
  simp only []
  rw [ht]
  simp only []
  cases hd : w.dialAndSend host port f.smtpUser f.smtpPass (complete st.m f.smtpTo) with
  | none => simp [runOf]
  | some x => simp [runOf]

theorem send_of_afterDefer (w : World) (f : Flags) (st : Run) (e : Event)
    (he : e ∈ (runOf (afterDefer w f st)).trace) (hs : isSend e = true) :
    e ∈ st.trace ∨ ∃ listing st1 host port,
      answer w st.exchanges (.get urlSTATEMENTS) = .ok ⟨.ok listing⟩
      ∧ loop w f (reStatements.FindAllSubmatch listing)
          ⟨⟨st.trace ++ [Event.request (.get urlSTATEMENTS)], st.exchanges + 1, st.clock⟩,
            NewMessage, 0⟩ = .ok st1
      ∧ st1.hasFile ≠ 0
      ∧ e = Event.dialAndSend host port f.smtpUser f.smtpPass (complete st1.m f.smtpTo) := by
  have key : ∀ e1 ∈ st.trace ++ [Event.request (.get urlSTATEMENTS)],
      isSend e1 = true → e1 ∈ st.trace :=
    fun e1 h1 hs1 => send_of_append_requests st.trace [.get urlSTATEMENTS] e1 h1 hs1
  unfold afterDefer at he
  rcases send_cases st w (.get urlSTATEMENTS) with ⟨x, hsd⟩ | ⟨x, hsd⟩ | ⟨resp, ha, hsd⟩
  · rw [hsd] at he
    exact Or.inl he
  · rw [hsd] at he
    exact Or.inl (key e he hs)
  · rw [hsd] at he
    simp only at he
    obtain ⟨body⟩ := resp
    cases body with
    | err x => exact Or.inl (key e he hs)
    | ok listing =>
      simp only at he
      by_cases hrs : (reStatements.FindAllSubmatch listing).isEmpty = true
      · rw [if_pos hrs] at he
        exact Or.inl (key e he hs)
      · rw [if_neg hrs] at he
        cases hl : loop w f (reStatements.FindAllSubmatch listing)
            ⟨⟨st.trace ++ [Event.request (.get urlSTATEMENTS)], st.exchanges + 1, st.clock⟩,
              NewMessage, 0⟩ with
        | error x =>
          rw [hl] at he
          obtain ⟨reqs, hreqs⟩ := loop_trace w f (reStatements.FindAllSubmatch listing)
            ⟨⟨st.trace ++ [Event.request (.get urlSTATEMENTS)], st.exchanges + 1, st.clock⟩,
              NewMessage, 0⟩
          rw [hl] at hreqs
          obtain ⟨r, d⟩ := x
          simp only [loopRunOf] at hreqs
          simp only [runOf] at he
          rw [hreqs] at he
          exact Or.inl (key e (send_of_append_requests _ reqs e he hs) hs)
        | ok st1 =>
          rw [hl] at he
          simp only at he
          rcases send_of_mail w f st1 e he with h1 | ⟨h0, host, port, h1⟩
          · obtain ⟨_, _, _, _, reqs, hreqs⟩ := loop_ok w f _ _ st1 hl
            rw [hreqs] at h1
            exact Or.inl (key e (send_of_append_requests _ reqs e h1 hs) hs)
          · exact Or.inr ⟨listing, st1, host, port, ha, hl, h0, h1⟩

/-- What `main` does once the login page and the login exchange succeeded. -/
theorem main_after_login (w : World) (f : Flags) (page b1 : Str) (tok : Tokens)
    (hf : missingRequired f = false)
    (h0 : answer w 0 (.get urlLOGIN) = .ok ⟨.ok page⟩)
    (htok : extractTokens page = .ok tok)
    (h1 : answer w 1 (.post (urlSITE ++ tok.login) contentTypeJSON
      (some ⟨f.username, f.password, none⟩)) = .ok ⟨.ok b1⟩) :
    main w f =
      match afterDefer w f
        ⟨[Event.request (.get urlLOGIN),
          Event.request (.post (urlSITE ++ tok.login) contentTypeJSON
            (some ⟨f.username, f.password, none⟩))], 2, 0⟩ with
      | .error (st3, d) => st3.fatal d
      | .ok st3 => logout w tok.logout st3 := by
  unfold main
  simp only []
  rw [if_neg (by rw [hf]; exact Bool.false_ne_true), send_of_answer _ w _ _ h0]
  simp only []
  rw [htok]
  simp only []
  rw [send_of_answer _ w _ _ h1]
  rfl

/-- Every run of `main` either ends before the `defer` statement, with
requests and one fatal event only, or passes the login. -/
theorem main_cases (w : World) (f : Flags) :
    (∃ (reqs : List Request) (d : Diag), main w f = ⟨reqs.map Event.request ++ [Event.fatal d], 1⟩)
    ∨ ∃ (page b1 : Str) (tok : Tokens), missingRequired f = false
        ∧ answer w 0 (.get urlLOGIN) = .ok ⟨.ok page⟩
        ∧ extractTokens page = .ok tok
        ∧ answer w 1 (.post (urlSITE ++ tok.login) contentTypeJSON
            (some ⟨f.username, f.password, none⟩)) = .ok ⟨.ok b1⟩ := by
  by_cases hm : missingRequired f = true
  · left
    refine ⟨[], .text "One or more required flags are not given".toList, ?_⟩
    unfold main
    simp only []
    rw [if_pos hm]
    rfl
  · have hf : missingRequired f = false := by simpa using hm
    have hmain0 : main w f =
        match (⟨[], 0, 0⟩ : Run).send w (.get urlLOGIN) with
        | (st1, .err e) => st1.fatal (.text e)
        | (st1, .ok resp) =>
          match resp.body with
          | .err e => st1.fatal (.text e)
          | .ok body =>
            match extractTokens body with
            | .error d => st1.fatal d
            | .ok tok =>
              match st1.send w (.post (urlSITE ++ tok.login) contentTypeJSON
                  (some ⟨f.username, f.password, none⟩)) with
              | (st2, .err e) => st2.fatal (.text e)
              | (st2, .ok resp2) =>
                match resp2.body with
                | .err e => st2.fatal (.text e)
                | .ok _ =>
                  match afterDefer w f st2 with
                  | .error (st3, d) => st3.fatal d
                  | .ok st3 => logout w tok.logout st3 := by
      unfold main
      simp only []
      rw [if_neg hm]
    rcases send_cases ⟨[], 0, 0⟩ w (.get urlLOGIN) with ⟨x, hs⟩ | ⟨x, hs⟩ | ⟨resp, ha, hs⟩
    · left
      refine ⟨[], .text x, ?_⟩
      rw [hmain0, hs]
      rfl
    · left
      refine ⟨[.get urlLOGIN], .text x, ?_⟩
      rw [hmain0, hs]
      rfl
    · obtain ⟨body⟩ := resp
      cases body with
      | err x =>
        left
        refine ⟨[.get urlLOGIN], .text x, ?_⟩
        rw [hmain0, hs]
        rfl
      | ok page =>
        cases htok : extractTokens page with
        | error d =>
          left
          exact ⟨[.get urlLOGIN], d, main_of_extract_error w f page d hf ha htok⟩
        | ok tok =>
          rcases send_cases ⟨[] ++ [Event.request (.get urlLOGIN)], 0 + 1, 0⟩ w
              (.post (urlSITE ++ tok.login) contentTypeJSON
                (some ⟨f.username, f.password, none⟩)) with
            ⟨x, hs2⟩ | ⟨x, hs2⟩ | ⟨resp2, ha2, hs2⟩
          · left
            refine ⟨[.get urlLOGIN], .text x, ?_⟩
            rw [hmain0, hs]
            simp only []
            rw [htok]
            simp only []
            rw [hs2]
            rfl
          · left
            refine ⟨[.get urlLOGIN, .post (urlSITE ++ tok.login) contentTypeJSON
              (some ⟨f.username, f.password, none⟩)], .text x, ?_⟩
            rw [hmain0, hs]
            simp only []
            rw [htok]
            simp only []
            rw [hs2]
            rfl
          · obtain ⟨body2⟩ := resp2
            cases body2 with
            | err x =>
              left
              refine ⟨[.get urlLOGIN, .post (urlSITE ++ tok.login) contentTypeJSON
                (some ⟨f.username, f.password, none⟩)], .text x, ?_⟩
              rw [hmain0, hs]
              simp only []
              rw [htok]
              simp only []
              rw [hs2]
              rfl
            | ok b1 => exact Or.inr ⟨page, b1, tok, hf, ha, htok, ha2⟩

theorem send_of_main (w : World) (f : Flags) (e : Event) (he : e ∈ (main w f).trace)
    (hs : isSend e = true) :
    ∃ listing st1 host port,
      answer w 2 (.get urlSTATEMENTS) = .ok ⟨.ok listing⟩
      ∧ (∃ run0 : Run, run0.clock = 0 ∧
          loop w f (reStatements.FindAllSubmatch listing) ⟨run0, NewMessage, 0⟩ = .ok st1)
      ∧ st1.hasFile ≠ 0
      ∧ e = Event.dialAndSend host port f.smtpUser f.smtpPass (complete st1.m f.smtpTo) := by
  rcases main_cases w f with ⟨reqs, d, hmain⟩ | ⟨page, b1, tok, hf, h0, htok, h1⟩
  · rw [hmain] at he
    simp only [List.mem_append, List.mem_singleton] at he
    rcases he with he | rfl
    · exact (no_send_in_requests reqs e he hs).elim
    · exact Bool.noConfusion hs
  · rw [main_after_login w f page b1 tok hf h0 htok h1] at he
    have hin : e ∈ (runOf (afterDefer w f
        ⟨[Event.request (.get urlLOGIN),
          Event.request (.post (urlSITE ++ tok.login) contentTypeJSON
            (some ⟨f.username, f.password, none⟩))], 2, 0⟩)).trace := by
      cases ha : afterDefer w f
        ⟨[Event.request (.get urlLOGIN),
          Event.request (.post (urlSITE ++ tok.login) contentTypeJSON
            (some ⟨f.username, f.password, none⟩))], 2, 0⟩ with
      | error x =>
        obtain ⟨r, d⟩ := x
        rw [ha] at he
        exact send_of_fatal _ _ e he hs
      | ok st3 =>
        rw [ha] at he
        exact send_of_logout _ _ _ e he hs
    rcases send_of_afterDefer w f _ e hin hs with h | ⟨listing, st1, host, port, a, b, c, d⟩
    · exact (no_send_in_requests [_, _] e h hs).elim
    · exact ⟨listing, st1, host, port, a, ⟨_, rfl, b⟩, c, d⟩

/-- A `log.Fatal` after the `defer` statement ends the run at once: the outcome
is the fatal exit of the state reached, without the deferred logout. -/
theorem main_of_fatal_after_defer (w : World) (f : Flags) (page b1 : Str) (tok : Tokens)
    (st3 : Run) (d : Diag) (hf : missingRequired f = false)
    (h0 : answer w 0 (.get urlLOGIN) = .ok ⟨.ok page⟩)
    (htok : extractTokens page = .ok tok)
    (h1 : answer w 1 (.post (urlSITE ++ tok.login) contentTypeJSON
      (some ⟨f.username, f.password, none⟩)) = .ok ⟨.ok b1⟩)
    (ha : afterDefer w f
      ⟨[Event.request (.get urlLOGIN),
        Event.request (.post (urlSITE ++ tok.login) contentTypeJSON
          (some ⟨f.username, f.password, none⟩))], 2, 0⟩ = .error (st3, d)) :
    main w f = ⟨st3.trace ++ [Event.fatal d], 1⟩ := by
  rw [main_after_login w f page b1 tok hf h0 htok h1, ha]
  rfl

/-! ## From the statements page to the mail -/

theorem survivors_nil (w : World) (f : Flags) (k : Nat) : survivors w f k [] = [] := rfl

/-- When every reference that passes the filter is downloaded, the loop
finishes. -/
theorem loop_of_downloads (w : World) (f : Flags) (rs : List (List Str)) (st : LoopState)
    (h : ∀ (i : Nat) (s : List Str), (survivors w f st.run.clock rs)[i]? = some s →
      ∃ resp, answer w (st.run.exchanges + i) (.get (urlSITE ++ s.getD 0 [])) = .ok resp) :
    ∃ st1, loop w f rs st = .ok st1 := by
  induction rs generalizing st with
  | nil => exact ⟨st, rfl⟩
  | cons s rest ih =>
    simp only [loop]
    cases hp : parseLayout (s.getD 1 []) with
    | none =>
      rw [loopStep_of_unparseable w f st s hp]
      simp only [survivors, hp] at h
      exact ih st h
    | some d =>
      rw [loopStep_of_parse w f st s d hp]
      simp only [survivors, hp] at h
      by_cases hold : tooOld f.days (Sub (w.now st.run.clock) (w.localDate d)) = true
      · rw [if_pos hold] at h ⊢
        exact ih { st with run := { st.run with clock := st.run.clock + 1 } } h
      · rw [if_neg hold] at h ⊢
        obtain ⟨resp, hresp⟩ := h 0 s (List.getElem?_cons_zero)
        rw [Nat.add_zero] at hresp
        rw [download_of_answer w { st with run := { st.run with clock := st.run.clock + 1 } }
          s resp hresp]
        apply ih
        intro i s1 hs1
        obtain ⟨resp1, hresp1⟩ := h (i + 1) s1 (by rw [List.getElem?_cons_succ]; exact hs1)
        have e : st.run.exchanges + (i + 1) = st.run.exchanges + 1 + i := by omega
        rw [e] at hresp1
        exact ⟨resp1, hresp1⟩

/-- Lines 142-221 once the statements page was read and the loop finished. -/
theorem afterDefer_of_loop (w : World) (f : Flags) (st : Run) (listing : Str) (st1 : LoopState)
    (ha : answer w st.exchanges (.get urlSTATEMENTS) = .ok ⟨.ok listing⟩)
    (hrs : reStatements.FindAllSubmatch listing ≠ [])
    (hl : loop w f (reStatements.FindAllSubmatch listing)
      ⟨⟨st.trace ++ [Event.request (.get urlSTATEMENTS)], st.exchanges + 1, st.clock⟩,
        NewMessage, 0⟩ = .ok st1) :
    afterDefer w f st = mail w f st1 := by
  unfold afterDefer
  rw [send_of_answer st w _ _ ha]
  simp only []
  rw [if_neg (by simpa using hrs), hl]

/-- C6: (1) whenever a run hands a message to `DialAndSend`, the statements page
was read, N >= 1 of its references passed the filter, and the message has
exactly N attachments: the i-th is named `statement-` followed by the date
token of the i-th reference that passed, in listing order, and each has the
header `Content-Type: application/pdf`. (2) Whenever a run reaches the
statements page, N >= 1 of its references pass the filter, each of them is
downloaded and the mail target resolves, the run does hand such a message to
`DialAndSend`, with that host and port. -/
theorem outbound_message_attachments (w : World) (f : Flags) :
    (∀ (host : Str) (port : Int) (user pass : Str) (m : Message),
      Event.dialAndSend host port user pass m ∈ (main w f).trace →
      ∃ listing : Str, answer w 2 (.get urlSTATEMENTS) = .ok ⟨.ok listing⟩
        ∧ 1 ≤ (survivors w f 0 (reStatements.FindAllSubmatch listing)).length
        ∧ m.attachments.length = (survivors w f 0 (reStatements.FindAllSubmatch listing)).length
        ∧ m.attachments.map (fun a => a.Name)
            = (survivors w f 0 (reStatements.FindAllSubmatch listing)).map
                (fun s => "statement-".toList ++ s.getD 1 [])
        ∧ ∀ a ∈ m.attachments,
            a.Header = [("Content-Type".toList, ["application/pdf".toList])])
    ∧ (∀ (page b1 listing : Str) (tok : Tokens) (host : Str) (port : Int),
      missingRequired f = false →
      answer w 0 (.get urlLOGIN) = .ok ⟨.ok page⟩ →
      extractTokens page = .ok tok →
      answer w 1 (.post (urlSITE ++ tok.login) contentTypeJSON
        (some ⟨f.username, f.password, none⟩)) = .ok ⟨.ok b1⟩ →
      answer w 2 (.get urlSTATEMENTS) = .ok ⟨.ok listing⟩ →
      1 ≤ (survivors w f 0 (reStatements.FindAllSubmatch listing)).length →
      (∀ (i : Nat) (s : List Str),
        (survivors w f 0 (reStatements.FindAllSubmatch listing))[i]? = some s →
        ∃ resp, answer w (3 + i) (.get (urlSITE ++ s.getD 0 [])) = .ok resp) →
      dialTarget f.smtp = .ok (host, port) →
      ∃ m : Message,
        Event.dialAndSend host port f.smtpUser f.smtpPass m ∈ (main w f).trace
        ∧ m.attachments.length = (survivors w f 0 (reStatements.FindAllSubmatch listing)).length
        ∧ m.attachments.map (fun a => a.Name)
            = (survivors w f 0 (reStatements.FindAllSubmatch listing)).map
                (fun s => "statement-".toList ++ s.getD 1 [])
        ∧ ∀ a ∈ m.attachments,
            a.Header = [("Content-Type".toList, ["application/pdf".toList])]) := by
  have shape : ∀ (listing : Str) (run0 : Run) (st1 : LoopState), run0.clock = 0 →
      loop w f (reStatements.FindAllSubmatch listing) ⟨run0, NewMessage, 0⟩ = .ok st1 →
      st1.hasFile = (survivors w f 0 (reStatements.FindAllSubmatch listing)).length
      ∧ st1.m.attachments.length
          = (survivors w f 0 (reStatements.FindAllSubmatch listing)).length
      ∧ st1.m.attachments.map (fun a => a.Name)
          = (survivors w f 0 (reStatements.FindAllSubmatch listing)).map
              (fun s => "statement-".toList ++ s.getD 1 [])
      ∧ ∀ a ∈ st1.m.attachments,
          a.Header = [("Content-Type".toList, ["application/pdf".toList])] := by
    intro listing run0 st1 hclock hloop
    obtain ⟨hatt, hcount, _, _, _⟩ := loop_ok w f _ _ st1 hloop
    simp only [hclock, NewMessage, List.map_nil, List.nil_append, zero_add] at hatt hcount
    refine ⟨hcount, ?_, ?_, ?_⟩
    · have := congrArg List.length hatt
      simpa using this
    · have := congrArg (List.map Prod.fst) hatt
      simpa [List.map_map, Function.comp_def] using this
    · intro a ha
      have hmem : (a.Name, a.Header) ∈ st1.m.attachments.map (fun a => (a.Name, a.Header)) :=
        List.mem_map.2 ⟨a, ha, rfl⟩
      rw [hatt] at hmem
      obtain ⟨s, _, hs⟩ := List.mem_map.1 hmem
      have := (Prod.mk.inj hs).2
      rw [← this]
      rfl
  constructor
  · intro host port user pass m h
    obtain ⟨listing, st1, host1, port1, hget, ⟨run0, hclock, hloop⟩, hfile, he⟩ :=
      send_of_main w f _ h rfl
    obtain ⟨hcount, hlen, hnames, hheaders⟩ := shape listing run0 st1 hclock hloop
    have hm : m.attachments = st1.m.attachments := by
      have := Event.dialAndSend.inj he
      rw [this.2.2.2.2]
      rfl
    rw [hm]
    exact ⟨listing, hget, by omega, hlen, hnames, hheaders⟩
  · intro page b1 listing tok host port hf h0 htok h1 h2 hN hdl htarget
    have hrs : reStatements.FindAllSubmatch listing ≠ [] := by
      intro hnil
      rw [hnil, survivors_nil] at hN
      exact absurd hN (by decide)
    obtain ⟨st1, hloop⟩ := loop_of_downloads w f (reStatements.FindAllSubmatch listing)
      ⟨⟨[Event.request (.get urlLOGIN),
          Event.request (.post (urlSITE ++ tok.login) contentTypeJSON
            (some ⟨f.username, f.password, none⟩))] ++ [Event.request (.get urlSTATEMENTS)],
          2 + 1, 0⟩, NewMessage, 0⟩ (by
        intro i s hs
        obtain ⟨resp, hresp⟩ := hdl i s hs
        exact ⟨resp, hresp⟩)
    obtain ⟨hcount, hlen, hnames, hheaders⟩ := shape listing _ st1 rfl hloop
    have hmail := mail_sends w f st1 host port (by omega) htarget
    refine ⟨complete st1.m f.smtpTo, ?_, hlen, hnames, hheaders⟩
    rw [main_after_login w f page b1 tok hf h0 htok h1,
      afterDefer_of_loop w f _ listing st1 h2 hrs hloop]
    cases hm : mail w f st1 with
    | error x =>
      obtain ⟨r, d⟩ := x
      rw [hm] at hmail
      simp only [runOf] at hmail
      simp only [Run.fatal]
      exact List.mem_append_left _ hmail
    | ok st3 =>
      rw [hm] at hmail
      simp only [runOf] at hmail
      obtain ⟨evs, htr, _⟩ := logout_trace w tok.logout st3
      simp only []
      rw [htr]
      exact List.mem_append_left _ hmail

/-- C6, worked instance: with the two statements of the example page and no age
limit, the run hands the message with the two attachments to `DialAndSend`
(second part of the theorem), and that message has the stated attachments
(first part). -/
theorem outbound_message_attachments_witness :
    survivors marchWorld (flagsOf 0 "smtp.example.org".toList) 0
        (reStatements.FindAllSubmatch pageStatements)
      = [refOf "20230101".toList "abc".toList, refOf "20230201".toList "def".toList]
    ∧ (∃ m : Message,
        Event.dialAndSend "smtp.example.org".toList 587
            (flagsOf 0 "smtp.example.org".toList).smtpUser
            (flagsOf 0 "smtp.example.org".toList).smtpPass m
          ∈ (main marchWorld (flagsOf 0 "smtp.example.org".toList)).trace
        ∧ m.attachments.length = (survivors marchWorld (flagsOf 0 "smtp.example.org".toList) 0
            (reStatements.FindAllSubmatch pageStatements)).length
        ∧ m.attachments.map (fun a => a.Name)
            = (survivors marchWorld (flagsOf 0 "smtp.example.org".toList) 0
                (reStatements.FindAllSubmatch pageStatements)).map
                (fun s => "statement-".toList ++ s.getD 1 [])
        ∧ ∀ a ∈ m.attachments,
            a.Header = [("Content-Type".toList, ["application/pdf".toList])])
    ∧ ∃ listing : Str, answer marchWorld 2 (.get urlSTATEMENTS) = .ok ⟨.ok listing⟩
      ∧ 1 ≤ (survivors marchWorld (flagsOf 0 "smtp.example.org".toList) 0
          (reStatements.FindAllSubmatch listing)).length
      ∧ messageOfTwo.attachments.length = (survivors marchWorld
          (flagsOf 0 "smtp.example.org".toList) 0 (reStatements.FindAllSubmatch listing)).length
      ∧ messageOfTwo.attachments.map (fun a => a.Name)
          = (survivors marchWorld (flagsOf 0 "smtp.example.org".toList) 0
              (reStatements.FindAllSubmatch listing)).map
              (fun s => "statement-".toList ++ s.getD 1 [])
      ∧ ∀ a ∈ messageOfTwo.attachments,
          a.Header = [("Content-Type".toList, ["application/pdf".toList])] :=
  ⟨by decide,
    (outbound_message_attachments marchWorld (flagsOf 0 "smtp.example.org".toList)).2
      pageLogin "pdf".toList pageStatements tokensOfPage "smtp.example.org".toList 587
      (by decide) (by decide) (by decide) (by decide) (by decide) (by decide)
      (by
        have hsurv : survivors marchWorld (flagsOf 0 "smtp.example.org".toList) 0
            (reStatements.FindAllSubmatch pageStatements)
            = [refOf "20230101".toList "abc".toList, refOf "20230201".toList "def".toList] := by
          decide
        intro i s hs
        rw [hsurv] at hs
        match i, hs with
        | 0, hs =>
          rw [List.getElem?_cons_zero] at hs
          rw [← Option.some.inj hs]
          exact ⟨⟨.ok "pdf".toList⟩, by decide⟩
        | 1, hs =>
          rw [List.getElem?_cons_succ, List.getElem?_cons_zero] at hs
          rw [← Option.some.inj hs]
          exact ⟨⟨.ok "pdf".toList⟩, by decide⟩
        | n + 2, hs =>
          rw [List.getElem?_cons_succ, List.getElem?_cons_succ] at hs
          exact absurd hs (by simp))
      (by decide),
    (outbound_message_attachments marchWorld (flagsOf 0 "smtp.example.org".toList)).1
      "smtp.example.org".toList 587 [] [] messageOfTwo (by decide)⟩

theorem loop_of_no_survivor (w : World) (f : Flags) (rs : List (List Str)) (st : LoopState)
    (h : survivors w f st.run.clock rs = []) :
    ∃ k, loop w f rs st = .ok { st with run := { st.run with clock := k } } := by
  induction rs generalizing st with
  | nil => exact ⟨st.run.clock, rfl⟩
  | cons s rest ih =>
    simp only [loop]
    cases hp : parseLayout (s.getD 1 []) with
    | none =>
      simp only [survivors, hp] at h
      rw [loopStep_of_unparseable w f st s hp]
      exact ih st h
    | some d =>
      simp only [survivors, hp] at h
      rw [loopStep_of_parse w f st s d hp]
      by_cases hold : tooOld f.days (Sub (w.now st.run.clock) (w.localDate d)) = true
      · rw [if_pos hold] at h ⊢
        exact ih { st with run := { st.run with clock := st.run.clock + 1 } } h
      · rw [if_neg hold] at h
        exact absurd h (List.cons_ne_nil _ _)

/-- C8: in a run that reaches the statement loop (login done, statements page
read, at least one reference on it) and in which no reference passes the
filter, no call of `DialAndSend` is made; the run goes from the request of the
statements page straight to the deferred logout, so that nothing between them
(the resolution of the mail target included) can be fatal; and when the logout
exchange succeeds the run ends with exit status 0 after exactly four requests. -/
theorem no_survivor_no_mail (w : World) (f : Flags) (page b1 listing : Str) (tok : Tokens)
    (hf : missingRequired f = false)
    (h0 : answer w 0 (.get urlLOGIN) = .ok ⟨.ok page⟩)
    (htok : extractTokens page = .ok tok)
    (h1 : answer w 1 (.post (urlSITE ++ tok.login) contentTypeJSON
      (some ⟨f.username, f.password, none⟩)) = .ok ⟨.ok b1⟩)
    (h2 : answer w 2 (.get urlSTATEMENTS) = .ok ⟨.ok listing⟩)
    (hrs : reStatements.FindAllSubmatch listing ≠ [])
    (hnone : survivors w f 0 (reStatements.FindAllSubmatch listing) = []) :
    (∀ host port user pass m, Event.dialAndSend host port user pass m ∉ (main w f).trace)
    ∧ (∃ k, main w f = logout w tok.logout
        ⟨[Event.request (.get urlLOGIN),
          Event.request (.post (urlSITE ++ tok.login) contentTypeJSON
            (some ⟨f.username, f.password, none⟩)),
          Event.request (.get urlSTATEMENTS)], 3, k⟩)
    ∧ (∀ b, answer w 3 (.post (urlSITE ++ tok.logout) contentTypeJSON none) = .ok ⟨.ok b⟩ →
        main w f = ⟨[Event.request (.get urlLOGIN),
          Event.request (.post (urlSITE ++ tok.login) contentTypeJSON
            (some ⟨f.username, f.password, none⟩)),
          Event.request (.get urlSTATEMENTS),
          Event.request (.post (urlSITE ++ tok.logout) contentTypeJSON none)], 0⟩) := by
  have hmain : ∃ k, main w f = logout w tok.logout
      ⟨[Event.request (.get urlLOGIN),
        Event.request (.post (urlSITE ++ tok.login) contentTypeJSON
          (some ⟨f.username, f.password, none⟩)),
        Event.request (.get urlSTATEMENTS)], 3, k⟩ := by
    obtain ⟨k, hk⟩ := loop_of_no_survivor w f (reStatements.FindAllSubmatch listing)
      ⟨⟨[Event.request (.get urlLOGIN),
        Event.request (.post (urlSITE ++ tok.login) contentTypeJSON
          (some ⟨f.username, f.password, none⟩)),
        Event.request (.get urlSTATEMENTS)], 3, 0⟩, NewMessage, 0⟩ hnone
    refine ⟨k, ?_⟩
    have hk2 : loop w f (reStatements.FindAllSubmatch listing)
        ⟨⟨[Event.request (.get urlLOGIN),
          Event.request (.post (urlSITE ++ tok.login) contentTypeJSON
            (some ⟨f.username, f.password, none⟩))] ++ [Event.request (.get urlSTATEMENTS)],
          2 + 1, 0⟩, NewMessage, 0⟩
        = .ok ⟨⟨[Event.request (.get urlLOGIN),
          Event.request (.post (urlSITE ++ tok.login) contentTypeJSON
            (some ⟨f.username, f.password, none⟩)),
          Event.request (.get urlSTATEMENTS)], 3, k⟩, NewMessage, 0⟩ := hk
    rw [main_after_login w f page b1 tok hf h0 htok h1,
      afterDefer_of_loop w f
        ⟨[Event.request (.get urlLOGIN),
          Event.request (.post (urlSITE ++ tok.login) contentTypeJSON
            (some ⟨f.username, f.password, none⟩))], 2, 0⟩ listing _ h2 hrs hk2]
    rfl
  refine ⟨?_, hmain, ?_⟩
  · intro host port user pass m hin
    obtain ⟨k, hk⟩ := hmain
    rw [hk] at hin
    exact no_send_in_requests [_, _, _] _ (send_of_logout _ _ _ _ hin rfl) rfl
  · intro b hb
    obtain ⟨k, hk⟩ := hmain
    rw [hk]
    unfold logout
    rw [send_of_answer _ w _ _ hb]
    rfl

/-- C8, worked instance: threshold of 10 days on 2023-03-01, so both statements
of the example page are too old; the mail target `[::1]`, which would be fatal
if it were resolved, is never looked at. -/
theorem no_survivor_no_mail_witness :
    (∀ host port user pass m, Event.dialAndSend host port user pass m
        ∉ (main (siteWorld pageLogin pageStatements) (flagsOf 10 "[::1]".toList)).trace)
    ∧ (∃ k, main (siteWorld pageLogin pageStatements) (flagsOf 10 "[::1]".toList)
        = logout (siteWorld pageLogin pageStatements) tokensOfPage.logout
          ⟨[Event.request (.get urlLOGIN),
            Event.request (.post (urlSITE ++ tokensOfPage.login) contentTypeJSON
              (some ⟨(flagsOf 10 "[::1]".toList).username,
                (flagsOf 10 "[::1]".toList).password, none⟩)),
            Event.request (.get urlSTATEMENTS)], 3, k⟩)
    ∧ (∀ b, answer (siteWorld pageLogin pageStatements) 3
          (.post (urlSITE ++ tokensOfPage.logout) contentTypeJSON none) = .ok ⟨.ok b⟩ →
        main (siteWorld pageLogin pageStatements) (flagsOf 10 "[::1]".toList)
          = ⟨[Event.request (.get urlLOGIN),
            Event.request (.post (urlSITE ++ tokensOfPage.login) contentTypeJSON
              (some ⟨(flagsOf 10 "[::1]".toList).username,
                (flagsOf 10 "[::1]".toList).password, none⟩)),
            Event.request (.get urlSTATEMENTS),
            Event.request (.post (urlSITE ++ tokensOfPage.logout) contentTypeJSON none)], 0⟩) :=
  no_survivor_no_mail (siteWorld pageLogin pageStatements) (flagsOf 10 "[::1]".toList)
    pageLogin "pdf".toList pageStatements tokensOfPage (by decide) (by decide) (by decide)
    (by decide) (by decide) (by decide) (by decide)

/-! ## The mail target: what lines 198-214 do on plain targets -/

theorem indexByte_of_not_mem (s : Str) (c : Char) (h : c ∉ s) : indexByte s c = none := by
  have : List.indexOf c s = s.length := List.indexOf_eq_length.2 h
  simp [indexByte, this]

theorem lastIndexByte_of_not_mem (s : Str) (c : Char) (h : c ∉ s) : lastIndexByte s c = none := by
  have : indexByte s.reverse c = none := indexByte_of_not_mem _ _ (by simpa using h)
  simp [lastIndexByte, this]

theorem lastIndexByte_append (host port : Str) (c : Char) (h : c ∉ port) :
    lastIndexByte (host ++ c :: port) c = some host.length := by
  have hrev : (host ++ c :: port).reverse = port.reverse ++ c :: host.reverse := by simp
  have hidx : List.indexOf c (port.reverse ++ c :: host.reverse) = port.length := by
    rw [List.indexOf_append_of_not_mem (by simpa using h)]
    simp
  simp only [lastIndexByte, indexByte, hrev, hidx]
  simp only [List.length_append, List.length_reverse, List.length_cons]
  rw [if_pos (by omega)]
  simp only [Option.some.injEq]
  omega

/-- `SplitHostPort` on a host without colon or bracket followed by a colon and a
port without colon or bracket. -/
theorem SplitHostPort_plain (host port : Str) (hc : colon ∉ host) (hl : lbracket ∉ host)
    (hr : rbracket ∉ host) (pc : colon ∉ port) (pl : lbracket ∉ port) (pr : rbracket ∉ port) :
    SplitHostPort (host ++ colon :: port) = .ok (host, port) := by
  have hhead : (host ++ colon :: port).head? ≠ some lbracket := by
    cases host with
    | nil =>
      simp only [List.nil_append, List.head?_cons, ne_eq, Option.some.injEq]
      decide
    | cons x xs =>
      simp only [List.cons_append, List.head?_cons, ne_eq, Option.some.injEq]
      rintro rfl
      exact hl (List.mem_cons_self _ _)
  have h1 : indexByte host colon = none := indexByte_of_not_mem _ _ hc
  have h2 : indexByte (host ++ colon :: port) lbracket = none := by
    apply indexByte_of_not_mem
    simp only [List.mem_append, List.mem_cons, not_or]
    exact ⟨hl, by decide, pl⟩
  have h3 : indexByte (host ++ colon :: port) rbracket = none := by
    apply indexByte_of_not_mem
    simp only [List.mem_append, List.mem_cons, not_or]
    exact ⟨hr, by decide, pr⟩
  have h4 : (host ++ colon :: port).drop (host.length + 1) = port := by
    have : host ++ colon :: port = (host ++ [colon]) ++ port := by simp
    rw [this]
    exact List.drop_left' (by simp)
  simp only [SplitHostPort, lastIndexByte_append host port colon pc, if_neg hhead, h1, h2, h3,
    h4, Option.isSome_none, Bool.false_eq_true, if_false, List.take_left' rfl]

/-- For every target without colon or bracket (a host name or an IPv4
address), the dialer is given that text as host and the port 587. -/
theorem dialTarget_of_host (host : Str) (hne : host ≠ []) (hc : colon ∉ host)
    (hl : lbracket ∉ host) (hr : rbracket ∉ host) : dialTarget host = .ok (host, 587) := by
  have h1 : SplitHostPort host = .error ⟨missingPort, host⟩ := by
    simp only [SplitHostPort, lastIndexByte_of_not_mem host colon hc]
  have hlen : (host.length != 0) = true := by
    simpa using hne
  have h2 : Contains (AddrError.Error ⟨missingPort, host⟩) missingPort = true := by
    apply contains_of_occurs
    refine ⟨"address ".toList ++ host ++ ": ".toList, [], ?_⟩
    simp only [AddrError.Error, hlen, if_true, List.append_nil]
  have h3 : JoinHostPort host "587".toList = host ++ colon :: "587".toList := by
    simp only [JoinHostPort, indexByte_of_not_mem host colon hc, Option.isSome_none,
      Bool.false_eq_true, if_false, List.append_assoc, List.singleton_append]
  have h4 := SplitHostPort_plain host "587".toList hc hl hr (by decide) (by decide) (by decide)
  have h5 : Atoi "587".toList = some 587 := by decide
  simp only [dialTarget, h1, h2, Bool.not_true, Bool.false_eq_true, if_false, h3, hostAndPort,
    h4, h5]

/-- For every target made of a host without colon or bracket, a colon and a
decimal port, the dialer is given that host and that port. -/
theorem dialTarget_of_host_port (host port : Str) (hc : colon ∉ host) (hl : lbracket ∉ host)
    (hr : rbracket ∉ host) (hp : port ≠ []) (hd : ∀ c ∈ port, isDigit c = true)
    (hv : (digitsVal port : Int) ≤ maxInt64) :
    dialTarget (host ++ colon :: port) = .ok (host, (digitsVal port : Int)) := by
  have nd : ∀ x : Char, isDigit x = false → x ∉ port := by
    intro x hx hm
    rw [hd x hm] at hx
    exact Bool.noConfusion hx
  have h1 := SplitHostPort_plain host port hc hl hr (nd colon (by decide))
    (nd lbracket (by decide)) (nd rbracket (by decide))
  have h2 : Atoi port = some (digitsVal port : Int) := by
    cases port with
    | nil => exact absurd rfl hp
    | cons x xs =>
      have hx : isDigit x = true := hd x (List.mem_cons_self _ _)
      have hplus : x ≠ Char.ofNat 43 := by
        rintro rfl
        exact absurd hx (by decide)
      have hminus : x ≠ Char.ofNat 45 := by
        rintro rfl
        exact absurd hx (by decide)
      have hall : (x :: xs).all isDigit = true := by
        rw [List.all_eq_true]
        exact hd
      have hlo : ¬ ((digitsVal (x :: xs) : Int) < minInt64) := by
        have : (0 : Int) ≤ (digitsVal (x :: xs) : Int) := Int.ofNat_nonneg _
        unfold minInt64
        omega
      have hhi : ¬ (maxInt64 < (digitsVal (x :: xs) : Int)) := by omega
      simp [Atoi, hplus, hminus, hall, hlo, hhi]
  simp only [dialTarget, h1, hostAndPort, h2]

/-! ## The deferred logout and `log.Fatal` -/

/-- C1, the run the claim names: the login succeeds, the statements page has no
reference. The process ends in the `log.Fatal` of line 159 with exit status 1,
and the logout request is not among the requests of the run. -/
theorem fatal_after_login_skips_logout :
    main (siteWorld pageLogin pageEmpty) (flagsOf 0 "smtp.example.org".toList)
      = ⟨[Event.request (.get urlLOGIN),
          Event.request (.post (urlSITE ++ "/service/rest/login".toList)
            contentTypeJSON (some ⟨"user".toList, "secret".toList, none⟩)),
          Event.request (.get urlSTATEMENTS),
          Event.fatal (.text "Unable to find 'statements'".toList)], 1⟩
    ∧ Event.request logoutRequest
        ∉ (main (siteWorld pageLogin pageEmpty) (flagsOf 0 "smtp.example.org".toList)).trace := by
  decide

/-! ## The mail target -/

/-- C7, the failing input: the target `[::1]` has no port and `SplitHostPort`
says so, but `JoinHostPort` wraps it in a second pair of brackets and the
second `SplitHostPort` fails: the run ends in `log.Fatal` after the downloads,
and no dialer is ever given port 587. -/
theorem bracketed_target_without_port_is_fatal :
    SplitHostPort "[::1]".toList = .error ⟨missingPort, "[::1]".toList⟩
    ∧ JoinHostPort "[::1]".toList "587".toList = "[[::1]]:587".toList
    ∧ dialTarget "[::1]".toList
        = .error (.text "address [[::1]]:587: missing port in address".toList)
    ∧ main (siteWorld pageLogin pageStatements) (flagsOf 0 "[::1]".toList)
      = ⟨[Event.request (.get urlLOGIN),
          Event.request (.post (urlSITE ++ "/service/rest/login".toList)
            contentTypeJSON (some ⟨"user".toList, "secret".toList, none⟩)),
          Event.request (.get urlSTATEMENTS),
          Event.request (.get (urlSITE ++ stmtHead ++ "20230101/abc".toList ++ stmtTail)),
          Event.request (.get (urlSITE ++ stmtHead ++ "20230201/def".toList ++ stmtTail)),
          Event.fatal (.text "address [[::1]]:587: missing port in address".toList)], 1⟩ := by
  decide

end Qander
